import Mathlib

/-!
Verification of the htmldom node / child-list core (src/htmldom/node.py).

The Python code mutates a heap of `Node` objects.  Each `Node` owns one
`_childrenlist` (fields `head`, `tail`) and a name-keyed child index
`_cmap`, and carries sibling links `prev`, `next` plus a `parent`
back-reference.  Node names are process-unique strings (produced by
`Node.make_name`), so we model the heap as a total function from names to
node records and use names as object identities; Python's `is` on nodes
becomes name equality.  The `_childrenlist` owned by a node is flattened
into that node's record (`head`, `tail`), and `_cmap` is modelled by its
key list in insertion order (the values of the Python dict are exactly the
nodes named by the keys).
-/

namespace Htmldom

/-- The per-object attributes of a Python `Node`: sibling links `prev` and
`next`, the `parent` back-reference, the owned `_childrenlist`'s `head` and
`tail`, and the keys of `_cmap` in dict insertion order. -/
structure NodeData where
  parent : Option String := none
  prev : Option String := none
  next : Option String := none
  head : Option String := none
  tail : Option String := none
  cmap : List String := []
deriving Repr, DecidableEq

/-- The heap: every name denotes a node record.  A freshly constructed
`Node` has all-`none` links and an empty index, which is also the record of
any name not yet used. -/
def State := String → NodeData

/-- The heap in which no node has been linked to any other: every record is
as `Node.__init__` leaves it (`prev = next = None`, empty children, empty
`_cmap`). -/
def initState : State := fun _ => {}

/-- `x.prev = v` on the heap. -/
def setPrev (s : State) (x : String) (v : Option String) : State :=
  fun y => if y = x then { s y with prev := v } else s y

/-- `x.next = v` on the heap. -/
def setNext (s : State) (x : String) (v : Option String) : State :=
  fun y => if y = x then { s y with next := v } else s y

/-- `x.children.head = v` on the heap. -/
def setHead (s : State) (x : String) (v : Option String) : State :=
  fun y => if y = x then { s y with head := v } else s y

/-- `x.children.tail = v` on the heap. -/
def setTail (s : State) (x : String) (v : Option String) : State :=
  fun y => if y = x then { s y with tail := v } else s y

/-- Replacing `x._cmap`'s key list on the heap. -/
def setCmap (s : State) (x : String) (v : List String) : State :=
  fun y => if y = x then { s y with cmap := v } else s y

namespace Childrenlist

/-- `_childrenlist.append(self, node)`, the list owned by `p`:
`node.prev = self.tail`; `if self.tail is None: self.head = node`
`else: self.tail.next = node`; `self.tail = node`; `node.next = None`. -/
def append (s : State) (p node : String) : State :=
  let s1 := setPrev s node (s p).tail
  let s2 := match (s1 p).tail with
    | none => setHead s1 p (some node)
    | some t => setNext s1 t (some node)
  let s3 := setTail s2 p (some node)
  setNext s3 node none

/-- `_childrenlist.insert_before(self, ref, new)`, the list owned by `p`:
`new.next = ref`; `new.prev = ref.prev`; `ref.prev = new`;
`if new.prev is not None: new.prev.next = new`;
`if ref is self.head: self.head = new`. -/
def insert_before (s : State) (p ref new : String) : State :=
  let s1 := setNext s new (some ref)
  let s2 := setPrev s1 new (s1 ref).prev
  let s3 := setPrev s2 ref (some new)
  let s4 := match (s3 new).prev with
    | none => s3
    | some q => setNext s3 q (some new)
  if (s4 p).head = some ref then setHead s4 p (some new) else s4

/-- `_childrenlist.delete(self, node)`, the list owned by `p`:
`if node is not self.head: node.prev.next = node.next`
`else: self.head = node.next`;
`if node is not self.tail: node.next.prev = node.prev`
`else: self.tail = node.prev`.
Attribute access on an absent (`None`) reference is a Python error, so the
two unguarded dereferences `node.prev.next` and `node.next.prev` are
modelled as `none` results. -/
def delete (s : State) (p node : String) : Option (State) :=
  let step1 : Option State :=
    if (s p).head = some node then
      some (setHead s p (s node).next)
    else
      match (s node).prev with
      | none => none
      | some q => some (setNext s q (s node).next)
  match step1 with
  | none => none
  | some s1 =>
    if (s1 p).tail = some node then
      some (setTail s1 p (s1 node).prev)
    else
      match (s1 node).next with
      | none => none
      | some q => some (setPrev s1 q (s1 node).prev)

end Childrenlist

namespace Node

/-- `_cmap[k] = v` at the key-list level: a Python dict assignment keeps an
existing key's position and appends an absent key at the end. -/
def insertKey (ks : List String) (k : String) : List String :=
  if k ∈ ks then ks else ks ++ [k]

/-- `Node.has_as_child(self, node)` after resolving a `Node` argument to
its name: `node in self._cmap`. -/
def has_as_child (s : State) (p : String) (name : String) : Bool :=
  name ∈ (s p).cmap

/-- `Node.fetch_child_by_name(self, name)`: `self._cmap.get(name)`; the
value stored under a present key is the node named by that key. -/
def fetch_child_by_name (s : State) (p : String) (name : String) : Option String :=
  if name ∈ (s p).cmap then some name else none

/-- `_childrenlist.isempty(self)` for the list owned by `p`. -/
def isempty (s : State) (p : String) : Bool :=
  (s p).head = none && (s p).tail = none

/-- `Node.has_children` property for `p`. -/
def has_children (s : State) (p : String) : Bool :=
  !(isempty s p)

/-- Outcome of a mutating `Node` method: normal return of the new heap and
the returned node's name, a `NotAChild` exception carrying the heap at the
moment of the raise, or an `AttributeError` from dereferencing `None`
inside `_childrenlist.delete`. -/
inductive Result where
  | ok (s : State) (ret : String)
  | notAChild (s : State)
  | attrError

/-- `Node.insert_before(self, new, ref=None)`:
if `ref is None`, `self.children.append(new)`; else if
`self.has_as_child(ref.name)`, `self.children.insert_before(ref, new)`;
on either insertion `self._cmap[new.name] = new; return new`; otherwise
raise `NotAChild`. -/
def insert_before (s : State) (p new : String) (ref : Option String) : Result :=
  match ref with
  | none =>
    let s1 := Childrenlist.append s p new
    Result.ok (setCmap s1 p (insertKey (s1 p).cmap new)) new
  | some r =>
    if has_as_child s p r then
      let s1 := Childrenlist.insert_before s p r new
      Result.ok (setCmap s1 p (insertKey (s1 p).cmap new)) new
    else
      Result.notAChild s

/-- `Node.replace_child(self, old, new)` with its `child_existence_required`
wrapper: if `not self.has_as_child(old.name)` raise `NotAChild`; else
`self.children.insert_before(old, new)`; `self._cmap[new.name] = new`;
`self.children.delete(old)`; `self._cmap.pop(old.name)`; `return old`. -/
def replace_child (s : State) (p old new : String) : Result :=
  if has_as_child s p old then
    let s1 := Childrenlist.insert_before s p old new
    let s2 := setCmap s1 p (insertKey (s1 p).cmap new)
    match Childrenlist.delete s2 p old with
    | none => Result.attrError
    | some s3 => Result.ok (setCmap s3 p ((s3 p).cmap.erase old)) old
  else
    Result.notAChild s

/-- `Node.remove_child(self, child)` with its `child_existence_required`
wrapper: if `not self.has_as_child(child.name)` raise `NotAChild`; else
`self.children.delete(child)`; `self._cmap.pop(child.name)`;
`return child`. -/
def remove_child (s : State) (p child : String) : Result :=
  if has_as_child s p child then
    match Childrenlist.delete s p child with
    | none => Result.attrError
    | some s1 => Result.ok (setCmap s1 p ((s1 p).cmap.erase child)) child
  else
    Result.notAChild s

end Node

/-- `nextSeg s o l e` holds when following `next` pointers starting from the
reference `o` visits exactly the nodes of `l` in order and ends at the
reference `e`. -/
def nextSeg (s : State) : Option String → List String → Option String → Bool
  | o, [], e => o == e
  | o, y :: l, e => (o == some y) && nextSeg s (s y).next l e

/-- The forward iteration of `_childrenlist.__iter__` / `__next__` on the
list owned by `p`: starting at `head`, follow `next` until `None`,
yielding exactly the nodes of `l` in order. -/
def iterates (s : State) (p : String) (l : List String) : Bool :=
  nextSeg s (s p).head l none

/-- `prevChain s o l` holds when the `prev` pointers of the nodes of `l`
mirror the order: the first node's `prev` is `o` and every later node's
`prev` is its predecessor in `l`. -/
def prevChain (s : State) : Option String → List String → Bool
  | _, [] => true
  | o, y :: l => ((s y).prev == o) && prevChain s (some y) l

/-- The list owned by `p` is a well-formed doubly-linked list with member
sequence `l`: forward iteration from `head` yields `l` and ends at `None`,
the `prev` pointers mirror it starting from `None`, and `tail` is the last
member (or `None` for the empty list). -/
def wfList (s : State) (p : String) (l : List String) : Bool :=
  iterates s p l && prevChain s none l && ((s p).tail == l.getLast?)

/-- The last element of `l` as an optional reference, defaulting to `o`
when `l` is empty: the value that precedes anything appended after `l`. -/
def lastOpt (o : Option String) (l : List String) : Option String :=
  match l.getLast? with
  | none => o
  | some t => some t

/-- The reference at which a forward traversal of `l` ends: the `next` of
the last element of `l`, or the starting reference `o` when `l` is
empty. -/
def endRef (s : State) (o : Option String) (l : List String) : Option String :=
  match l.getLast? with
  | none => o
  | some t => (s t).next

/-- The doubly-linked consistency conditions exactly as the spec states
them for the list owned by `p` with members `l`: every member that is not
head is its predecessor's successor, every member that is not tail is its
successor's predecessor, head has no `prev`, tail has no `next`, and head
and tail are both absent precisely for the empty list. -/
def dllInv (s : State) (p : String) (l : List String) : Prop :=
  (∀ c ∈ l, (s p).head ≠ some c → ∃ b, (s c).prev = some b ∧ (s b).next = some c) ∧
  (∀ c ∈ l, (s p).tail ≠ some c → ∃ b, (s c).next = some b ∧ (s b).prev = some c) ∧
  (∀ c, (s p).head = some c → (s c).prev = none) ∧
  (∀ c, (s p).tail = some c → (s c).next = none) ∧
  (((s p).head = none ∧ (s p).tail = none) ↔ l = [])

/-- Ghost update of a member sequence for a successful
`children.insert_before(ref, new)`: `new` goes immediately before the
first occurrence of `r`; if `r` does not occur (which cannot happen on a
successful call) `new` lands at the end. -/
def insBef : List String → String → String → List String
  | [], _, new => [new]
  | x :: l, r, new => if x = r then new :: x :: l else x :: insBef l r new

/-- Ghost assignment of a member sequence to every node viewed as a
parent. -/
def Ch : Type := String → List String

/-- Initially every child list is empty. -/
def ch0 : Ch := fun _ => []

/-- Global well-formedness of a heap with ghost member sequences `ch`:
every node's child list is a well-formed doubly-linked list over `ch p`
without duplicates, `_cmap`'s key set coincides with the members, `_cmap`
has no duplicate keys, and no node is a member of two different parents'
lists. -/
def WF (s : State) (ch : Ch) : Prop :=
  (∀ p, wfList s p (ch p) = true) ∧
  (∀ p, (ch p).Nodup) ∧
  (∀ p x, x ∈ (s p).cmap ↔ x ∈ ch p) ∧
  (∀ p, (s p).cmap.Nodup) ∧
  (∀ p q x, x ∈ ch p → x ∈ ch q → p = q)

/-- The heaps reachable from the pristine heap through the public mutation
API, together with their ghost member sequences.  Following the spec's
state machine, a node passed as the `new` argument of an insertion or
replacement is unattached at call time; the arguments are otherwise
arbitrary, and calls that raise are identity steps on the heap. -/
inductive Reach : State → Ch → Prop where
  | base : Reach initState ch0
  | insertAppend {s ch s2 ret} (p new : String) : Reach s ch →
      (∀ q, new ∉ ch q) →
      Node.insert_before s p new none = Node.Result.ok s2 ret →
      Reach s2 (Function.update ch p (ch p ++ [new]))
  | insertRef {s ch s2 ret} (p new r : String) : Reach s ch →
      (∀ q, new ∉ ch q) →
      Node.insert_before s p new (some r) = Node.Result.ok s2 ret →
      Reach s2 (Function.update ch p (insBef (ch p) r new))
  | replaceChild {s ch s2 ret} (p old new : String) : Reach s ch →
      (∀ q, new ∉ ch q) →
      Node.replace_child s p old new = Node.Result.ok s2 ret →
      Reach s2 (Function.update ch p ((insBef (ch p) old new).erase old))
  | removeChild {s ch s2 ret} (p child : String) : Reach s ch →
      Node.remove_child s p child = Node.Result.ok s2 ret →
      Reach s2 (Function.update ch p ((ch p).erase child))

/-- The enumeration `NodeType` from the source. -/
inductive NodeType where
  | document
  | element
  | attributeType
  | pi
  | comment
  | text
deriving Repr, DecidableEq

/-- The lowercase tag of a node type as the spec reads it (e.g. `element`
for `NodeType.ELEMENT`).  This definition follows the words of the spec,
not the code, and exists to be compared with `Node.make_name`. -/
def NodeType.specTag : NodeType → String
  | .document => "document"
  | .element => "element"
  | .attributeType => "attribute"
  | .pi => "pi"
  | .comment => "comment"
  | .text => "text"

namespace Node

/-- `Node.make_name(self)`: `count = next(Node._count)`;
`cls = self.__class__.__name__.lower()` which is the string `node` for
every instance of class `Node` whatever its `node_type`;
`return f"{cls}_{count}"`.  The argument is the value drawn from the
shared `itertools.count()` counter, i.e. the number of nodes constructed
before this one. -/
def make_name (count : Nat) : String :=
  "node" ++ "_" ++ Nat.repr count

/-- The name the spec says construction assigns: the node type's lowercase
tag combined with the counter value.  Modelled from the spec for
comparison with `Node.make_name`. -/
def specName (t : NodeType) (count : Nat) : String :=
  t.specTag ++ "_" ++ Nat.repr count

end Node

/-- The constructor-dependent fields `Node.__init__` assigns: the stored
`node_type` and the `name` computed by `make_name` from the counter value
drawn at construction. -/
structure InitNode where
  node_type : NodeType
  name : String
deriving Repr, DecidableEq

/-- The observable outcome of `Node.__init__(node_type)` when the shared
counter `Node._count` is about to yield `count`: the node stores its
`node_type` and is named by `make_name`. -/
def Node.init (t : NodeType) (count : Nat) : InitNode :=
  ⟨t, Node.make_name count⟩

/-- Extract the heap from a method outcome (pristine heap on an error
without a surviving heap); used only to name concrete example states. -/
def stateOf : Node.Result → State
  | Node.Result.ok s _ => s
  | Node.Result.notAChild s => s
  | Node.Result.attrError => initState

/-- Example heap: `p.insert_before(a)` on the pristine heap. -/
def exA : State := stateOf (Node.insert_before initState "p" "a" none)

/-- Example heap: then `p.insert_before(b)`, so `p`'s children are
`[a, b]`. -/
def exAB : State := stateOf (Node.insert_before exA "p" "b" none)

/-- Example heap: `p`'s children `[a, b]`, then `p.remove_child(a)`. -/
def exRem : State := stateOf (Node.remove_child exAB "p" "a")

/-- Example heap: `p`'s children `[a, b]`, then `p.replace_child(a, c)`. -/
def exRep : State := stateOf (Node.replace_child exAB "p" "a" "c")

/-- Example heap: `p.insert_before(a)` then `q.insert_before(a)` — the
same node appended under two parents. -/
def exPQ : State := stateOf (Node.insert_before exA "q" "a" none)

/-- Example heap: `p`'s child `[a]`, then `p.insert_before(b, ref=a)`, so
`p`'s children are `[b, a]`. -/
def exBA : State := stateOf (Node.insert_before exA "p" "b" (some "a"))

/-- Ghost member sequences for `exA`: `p` has the single child `a`. -/
def chA : Ch := Function.update ch0 "p" ["a"]

/-- Ghost member sequences for `exAB`: `p` has children `[a, b]`. -/
def chAB : Ch := Function.update chA "p" (chA "p" ++ ["b"])

end Htmldom

namespace Htmldom

section SetterLemmas

variable {s : State} {x y : String} {v : Option String} {ks : List String}

@[simp] theorem setPrev_prev_self : (setPrev s x v x).prev = v := by
  simp [setPrev]

theorem setPrev_prev_of_ne (h : y ≠ x) : (setPrev s x v y).prev = (s y).prev := by
  simp [setPrev, h]

@[simp] theorem setPrev_next : (setPrev s x v y).next = (s y).next := by
  unfold setPrev; split <;> rfl

@[simp] theorem setPrev_head : (setPrev s x v y).head = (s y).head := by
  unfold setPrev; split <;> rfl

@[simp] theorem setPrev_tail : (setPrev s x v y).tail = (s y).tail := by
  unfold setPrev; split <;> rfl

@[simp] theorem setPrev_cmap : (setPrev s x v y).cmap = (s y).cmap := by
  unfold setPrev; split <;> rfl

@[simp] theorem setPrev_parent : (setPrev s x v y).parent = (s y).parent := by
  unfold setPrev; split <;> rfl

@[simp] theorem setNext_next_self : (setNext s x v x).next = v := by
  simp [setNext]

theorem setNext_next_of_ne (h : y ≠ x) : (setNext s x v y).next = (s y).next := by
  simp [setNext, h]

@[simp] theorem setNext_prev : (setNext s x v y).prev = (s y).prev := by
  unfold setNext; split <;> rfl

@[simp] theorem setNext_head : (setNext s x v y).head = (s y).head := by
  unfold setNext; split <;> rfl

@[simp] theorem setNext_tail : (setNext s x v y).tail = (s y).tail := by
  unfold setNext; split <;> rfl

@[simp] theorem setNext_cmap : (setNext s x v y).cmap = (s y).cmap := by
  unfold setNext; split <;> rfl

@[simp] theorem setNext_parent : (setNext s x v y).parent = (s y).parent := by
  unfold setNext; split <;> rfl

@[simp] theorem setHead_head_self : (setHead s x v x).head = v := by
  simp [setHead]

theorem setHead_head_of_ne (h : y ≠ x) : (setHead s x v y).head = (s y).head := by
  simp [setHead, h]

@[simp] theorem setHead_prev : (setHead s x v y).prev = (s y).prev := by
  unfold setHead; split <;> rfl

@[simp] theorem setHead_next : (setHead s x v y).next = (s y).next := by
  unfold setHead; split <;> rfl

@[simp] theorem setHead_tail : (setHead s x v y).tail = (s y).tail := by
  unfold setHead; split <;> rfl

@[simp] theorem setHead_cmap : (setHead s x v y).cmap = (s y).cmap := by
  unfold setHead; split <;> rfl

@[simp] theorem setHead_parent : (setHead s x v y).parent = (s y).parent := by
  unfold setHead; split <;> rfl

@[simp] theorem setTail_tail_self : (setTail s x v x).tail = v := by
  simp [setTail]

theorem setTail_tail_of_ne (h : y ≠ x) : (setTail s x v y).tail = (s y).tail := by
  simp [setTail, h]

@[simp] theorem setTail_prev : (setTail s x v y).prev = (s y).prev := by
  unfold setTail; split <;> rfl

@[simp] theorem setTail_next : (setTail s x v y).next = (s y).next := by
  unfold setTail; split <;> rfl

@[simp] theorem setTail_head : (setTail s x v y).head = (s y).head := by
  unfold setTail; split <;> rfl

@[simp] theorem setTail_cmap : (setTail s x v y).cmap = (s y).cmap := by
  unfold setTail; split <;> rfl

@[simp] theorem setTail_parent : (setTail s x v y).parent = (s y).parent := by
  unfold setTail; split <;> rfl

@[simp] theorem setCmap_cmap_self : (setCmap s x ks x).cmap = ks := by
  simp [setCmap]

theorem setCmap_cmap_of_ne (h : y ≠ x) : (setCmap s x ks y).cmap = (s y).cmap := by
  simp [setCmap, h]

@[simp] theorem setCmap_prev : (setCmap s x ks y).prev = (s y).prev := by
  unfold setCmap; split <;> rfl

@[simp] theorem setCmap_next : (setCmap s x ks y).next = (s y).next := by
  unfold setCmap; split <;> rfl

@[simp] theorem setCmap_head : (setCmap s x ks y).head = (s y).head := by
  unfold setCmap; split <;> rfl

@[simp] theorem setCmap_tail : (setCmap s x ks y).tail = (s y).tail := by
  unfold setCmap; split <;> rfl

@[simp] theorem setCmap_parent : (setCmap s x ks y).parent = (s y).parent := by
  unfold setCmap; split <;> rfl

end SetterLemmas

section ChainLemmas

variable {s s2 : State} {l l2 l₁ l₂ : List String} {o e m : Option String}
variable {p x y : String}

theorem nextSeg_congr (h : ∀ x ∈ l, (s2 x).next = (s x).next) :
    ∀ o e, nextSeg s2 o l e = nextSeg s o l e := by
  induction l with
  | nil => intro o e; rfl
  | cons y l ih =>
    intro o e
    simp only [nextSeg]
    rw [h y (by simp), ih (fun x hx => h x (by simp [hx]))]

theorem prevChain_congr (h : ∀ x ∈ l, (s2 x).prev = (s x).prev) :
    ∀ o, prevChain s2 o l = prevChain s o l := by
  induction l with
  | nil => intro o; rfl
  | cons y l ih =>
    intro o
    simp only [prevChain]
    rw [h y (by simp), ih (fun x hx => h x (by simp [hx]))]

theorem nextSeg_det (h1 : nextSeg s o l none = true)
    (h2 : nextSeg s o l2 none = true) : l = l2 := by
  induction l generalizing o l2 with
  | nil =>
    cases l2 with
    | nil => rfl
    | cons y l2 =>
      simp only [nextSeg, beq_iff_eq, Bool.and_eq_true] at h1 h2
      subst h1
      exact absurd h2.1 (by simp)
  | cons y l ih =>
    cases l2 with
    | nil =>
      simp only [nextSeg, beq_iff_eq, Bool.and_eq_true] at h1 h2
      subst h2
      exact absurd h1.1 (by simp)
    | cons y2 l2 =>
      simp only [nextSeg, beq_iff_eq, Bool.and_eq_true] at h1 h2
      obtain ⟨rfl, h1⟩ := h1
      obtain ⟨hy, h2⟩ := h2
      obtain rfl : y = y2 := by injection hy
      exact congrArg _ (ih h1 h2)

theorem nextSeg_append_iff :
    ∀ {o}, nextSeg s o (l₁ ++ l₂) e = true ↔
      ∃ m, nextSeg s o l₁ m = true ∧ nextSeg s m l₂ e = true := by
  induction l₁ with
  | nil =>
    intro o
    constructor
    · intro h
      exact ⟨o, by simp [nextSeg], h⟩
    · rintro ⟨m, hm, h⟩
      simp only [nextSeg, beq_iff_eq] at hm
      subst hm
      exact h
  | cons y l ih =>
    intro o
    constructor
    · intro h
      rw [show (y :: l) ++ l₂ = y :: (l ++ l₂) from rfl] at h
      simp only [nextSeg, Bool.and_eq_true, beq_iff_eq] at h
      obtain ⟨ho, h⟩ := h
      obtain ⟨m, hm1, hm2⟩ := ih.1 h
      refine ⟨m, ?_, hm2⟩
      simp only [nextSeg, Bool.and_eq_true, beq_iff_eq]
      exact ⟨ho, hm1⟩
    · rintro ⟨m, hm1, hm2⟩
      simp only [nextSeg, Bool.and_eq_true, beq_iff_eq] at hm1
      obtain ⟨ho, hm1⟩ := hm1
      rw [show (y :: l) ++ l₂ = y :: (l ++ l₂) from rfl]
      simp only [nextSeg, Bool.and_eq_true, beq_iff_eq]
      exact ⟨ho, ih.2 ⟨m, hm1, hm2⟩⟩

theorem nextSeg_append_of (h1 : nextSeg s o l₁ m = true)
    (h2 : nextSeg s m l₂ e = true) : nextSeg s o (l₁ ++ l₂) e = true :=
  nextSeg_append_iff.2 ⟨m, h1, h2⟩

theorem lastOpt_cons : lastOpt o (y :: l) = lastOpt (some y) l := by
  cases l with
  | nil => rfl
  | cons z l =>
    unfold lastOpt
    rw [List.getLast?_cons_cons]
    cases hg : (z :: l).getLast? with
    | none => exact absurd hg (by simp [List.getLast?_eq_none_iff])
    | some t => rfl

theorem nextSeg_end (h : nextSeg s o l e = true) :
    e = endRef s o l := by
  induction l generalizing o with
  | nil =>
    simp only [nextSeg, beq_iff_eq] at h
    simpa [endRef] using h.symm
  | cons y l ih =>
    simp only [nextSeg, Bool.and_eq_true, beq_iff_eq] at h
    obtain ⟨rfl, h⟩ := h
    rw [ih h]
    cases l with
    | nil => simp [endRef]
    | cons z l =>
      unfold endRef
      rw [List.getLast?_cons_cons]
      cases hg : (z :: l).getLast? with
      | none => exact absurd hg (by simp [List.getLast?_eq_none_iff])
      | some t => rfl

theorem prevChain_append :
    ∀ {o}, prevChain s o (l₁ ++ l₂) = (prevChain s o l₁ && prevChain s (lastOpt o l₁) l₂) := by
  induction l₁ with
  | nil =>
    intro o
    simp [prevChain, lastOpt]
  | cons y l ih =>
    intro o
    rw [show (y :: l) ++ l₂ = y :: (l ++ l₂) from rfl]
    simp only [prevChain, lastOpt_cons]
    rw [ih, Bool.and_assoc]

end ChainLemmas

section IfFormSetters

variable {s : State} {x y : String} {v : Option String} {ks : List String}

theorem setPrev_prev : (setPrev s x v y).prev = if y = x then v else (s y).prev := by
  unfold setPrev; split <;> rfl

theorem setNext_next : (setNext s x v y).next = if y = x then v else (s y).next := by
  unfold setNext; split <;> rfl

theorem setHead_head : (setHead s x v y).head = if y = x then v else (s y).head := by
  unfold setHead; split <;> rfl

theorem setTail_tail : (setTail s x v y).tail = if y = x then v else (s y).tail := by
  unfold setTail; split <;> rfl

theorem setCmap_cmap : (setCmap s x ks y).cmap = if y = x then ks else (s y).cmap := by
  unfold setCmap; split <;> rfl

end IfFormSetters

section WfListLemmas

variable {s s2 : State} {p q new : String} {l m : List String}

theorem wfList_iff :
    wfList s p l = true ↔
      (iterates s p l = true ∧ prevChain s none l = true ∧ (s p).tail = l.getLast?) := by
  simp [wfList, Bool.and_eq_true, beq_iff_eq, and_assoc]

theorem wfList_congr (hh : (s2 q).head = (s q).head) (htl : (s2 q).tail = (s q).tail)
    (hn : ∀ x ∈ m, (s2 x).next = (s x).next) (hp : ∀ x ∈ m, (s2 x).prev = (s x).prev) :
    wfList s2 q m = wfList s q m := by
  unfold wfList iterates
  rw [hh, htl, nextSeg_congr hn, prevChain_congr hp]

theorem wfList_head (h : wfList s p l = true) : (s p).head = l.head? := by
  obtain ⟨hiter, -, -⟩ := wfList_iff.1 h
  unfold iterates at hiter
  cases l with
  | nil => simpa [nextSeg] using hiter
  | cons y l =>
    simp only [nextSeg, Bool.and_eq_true, beq_iff_eq] at hiter
    exact hiter.1

theorem wfList_tail (h : wfList s p l = true) : (s p).tail = l.getLast? :=
  (wfList_iff.1 h).2.2

end WfListLemmas

section KeyListLemmas

variable {ks l l₁ l₂ : List String} {k x r new : String}

theorem mem_insertKey : x ∈ Node.insertKey ks k ↔ x ∈ ks ∨ x = k := by
  unfold Node.insertKey
  split <;> rename_i h
  · constructor
    · exact Or.inl
    · rintro (hx | rfl)
      · exact hx
      · exact h
  · simp

theorem nodup_insertKey (h : ks.Nodup) : (Node.insertKey ks k).Nodup := by
  unfold Node.insertKey
  split <;> rename_i hk
  · exact h
  · simpa [List.nodup_append, h] using hk

theorem insBef_eq (hr : r ∉ l₁) : insBef (l₁ ++ r :: l₂) r new = l₁ ++ new :: r :: l₂ := by
  induction l₁ with
  | nil => simp [insBef]
  | cons x l₁ ih =>
    have hxr : x ≠ r := fun e => hr (by simp [e])
    rw [show (x :: l₁) ++ r :: l₂ = x :: (l₁ ++ r :: l₂) from rfl]
    unfold insBef
    rw [if_neg hxr, ih (fun hm => hr (by simp [hm]))]
    rfl

theorem mem_insBef : ∀ {l : List String}, x ∈ insBef l r new ↔ x ∈ l ∨ x = new := by
  intro l
  induction l with
  | nil => simp [insBef]
  | cons y l ih =>
    unfold insBef
    split
    · simp [or_comm, or_assoc, Or.comm]
    · simp only [List.mem_cons, ih]
      tauto

theorem nodup_insBef (hnd : l.Nodup) (hnew : new ∉ l) : (insBef l r new).Nodup := by
  induction l with
  | nil => simp [insBef]
  | cons y l ih =>
    unfold insBef
    split
    · exact List.Nodup.cons hnew hnd
    · rename_i hyr
      rw [List.nodup_cons] at hnd
      refine List.Nodup.cons ?_ (ih hnd.2 (fun hm => hnew (by simp [hm])))
      intro hmem
      rcases mem_insBef.1 hmem with hy | rfl
      · exact hnd.1 hy
      · exact hnew (by simp)

end KeyListLemmas

section AppendLemmas

variable {s : State} {p new q x : String} {l : List String}

theorem append_cmap : ((Childrenlist.append s p new) x).cmap = (s x).cmap := by
  unfold Childrenlist.append
  simp only [setPrev_tail]
  cases h : (s p).tail <;> simp

theorem append_parent : ((Childrenlist.append s p new) x).parent = (s x).parent := by
  unfold Childrenlist.append
  simp only [setPrev_tail]
  cases h : (s p).tail <;> simp

theorem append_head_of_ne (hq : q ≠ p) :
    ((Childrenlist.append s p new) q).head = (s q).head := by
  unfold Childrenlist.append
  simp only [setPrev_tail]
  cases h : (s p).tail <;> simp [setHead_head, hq]

theorem append_tail_of_ne (hq : q ≠ p) :
    ((Childrenlist.append s p new) q).tail = (s q).tail := by
  unfold Childrenlist.append
  simp only [setPrev_tail]
  cases h : (s p).tail <;> simp [setTail_tail, hq]

theorem append_prev_of_ne (hx : x ≠ new) :
    ((Childrenlist.append s p new) x).prev = (s x).prev := by
  unfold Childrenlist.append
  simp only [setPrev_tail]
  cases h : (s p).tail <;> simp [setPrev_prev, hx]

theorem append_next_of_ne (hx : x ≠ new) (ht : (s p).tail ≠ some x) :
    ((Childrenlist.append s p new) x).next = (s x).next := by
  unfold Childrenlist.append
  simp only [setPrev_tail]
  cases h : (s p).tail with
  | none => simp [setNext_next, hx]
  | some t =>
    have hxt : x ≠ t := fun e => ht (by rw [h, e])
    simp [setNext_next, hx, hxt]

theorem append_wf (hwf : wfList s p l = true) (hnd : l.Nodup) (hnew : new ∉ l) :
    wfList (Childrenlist.append s p new) p (l ++ [new]) = true := by
  obtain ⟨hiter, hprev, htail⟩ := wfList_iff.1 hwf
  unfold iterates at hiter
  cases h : (s p).tail with
  | none =>
    have hl : l = [] := by
      rw [h] at htail
      exact List.getLast?_eq_none_iff.1 htail.symm
    subst hl
    have hX : Childrenlist.append s p new =
        setNext (setTail (setHead (setPrev s new none) p (some new)) p (some new)) new none := by
      unfold Childrenlist.append
      simp only [setPrev_tail, h]
    rw [hX]
    simp [wfList, iterates, nextSeg, prevChain, setHead_head, setTail_tail, setNext_next,
      setPrev_prev]
  | some t =>
    have hgl : l.getLast? = some t := by rw [← htail, h]
    have hsplit := List.dropLast_append_getLast? t (by rw [hgl]; rfl)
    obtain ⟨l', heq⟩ : ∃ l', l = l' ++ [t] := ⟨l.dropLast, hsplit.symm⟩
    subst heq
    have htl' : t ∉ l' := fun hm => (List.disjoint_of_nodup_append hnd) hm (by simp)
    have hnew_l' : new ∉ l' := fun hm => hnew (by simp [hm])
    have hnew_t : t ≠ new := fun e => hnew (by simp [e])
    obtain ⟨m, hseg1, hseg2⟩ := nextSeg_append_iff.1 hiter
    simp only [nextSeg, Bool.and_eq_true, beq_iff_eq] at hseg2
    obtain ⟨rfl, hnext_t⟩ := hseg2
    have hX : Childrenlist.append s p new =
        setNext (setTail (setNext (setPrev s new (some t)) t (some new)) p (some new)) new none := by
      unfold Childrenlist.append
      simp only [setPrev_tail, h]
    refine wfList_iff.2 ⟨?_, ?_, ?_⟩
    · unfold iterates
      have hXhead : ((Childrenlist.append s p new) p).head = (s p).head := by
        rw [hX]; simp
      have hXt : ((Childrenlist.append s p new) t).next = some new := by
        rw [hX]; simp [setNext_next, hnew_t]
      have hXnew : ((Childrenlist.append s p new) new).next = none := by
        rw [hX]; simp [setNext_next]
      have hcong : ∀ x ∈ l', ((Childrenlist.append s p new) x).next = (s x).next := by
        intro x hx
        have hx_new : x ≠ new := fun e => hnew_l' (e ▸ hx)
        have hx_t : x ≠ t := fun e => htl' (e ▸ hx)
        rw [hX]
        simp [setNext_next, hx_new, hx_t]
      rw [hXhead, List.append_assoc]
      refine nextSeg_append_of (m := some t) ?_ ?_
      · rw [nextSeg_congr hcong]
        exact hseg1
      · simp [nextSeg, hXt, hXnew]
    · have hXprev_new : ((Childrenlist.append s p new) new).prev = some t := by
        rw [hX]; simp [setPrev_prev]
      have hcongp : ∀ x ∈ l' ++ [t], ((Childrenlist.append s p new) x).prev = (s x).prev := by
        intro x hx
        have hx_new : x ≠ new := fun e => hnew (e ▸ hx)
        rw [hX]
        simp [setPrev_prev, hx_new]
      rw [prevChain_append, Bool.and_eq_true]
      constructor
      · rw [prevChain_congr hcongp]
        exact hprev
      · have hlast : lastOpt none (l' ++ [t]) = some t := by
          unfold lastOpt
          rw [List.getLast?_concat]
        rw [hlast]
        simp [prevChain, hXprev_new]
    · have hXtail : ((Childrenlist.append s p new) p).tail = some new := by
        rw [hX]; simp [setTail_tail]
      rw [hXtail, List.getLast?_concat]

end AppendLemmas

section InsertBeforeLemmas

variable {s : State} {p r new q x b : String} {l l₁ l₂ : List String}

theorem ib_reduce_none (hnr : new ≠ r) (hc : (s r).prev = none) :
    Childrenlist.insert_before s p r new =
      (if (s p).head = some r then
        setHead (setPrev (setPrev (setNext s new (some r)) new none) r (some new)) p (some new)
      else
        setPrev (setPrev (setNext s new (some r)) new none) r (some new)) := by
  unfold Childrenlist.insert_before
  simp [setPrev_prev, hc, hnr]

theorem ib_reduce_some (hnr : new ≠ r) (hc : (s r).prev = some b) :
    Childrenlist.insert_before s p r new =
      (if (s p).head = some r then
        setHead (setNext (setPrev (setPrev (setNext s new (some r)) new (some b)) r
          (some new)) b (some new)) p (some new)
      else
        setNext (setPrev (setPrev (setNext s new (some r)) new (some b)) r
          (some new)) b (some new)) := by
  unfold Childrenlist.insert_before
  simp [setPrev_prev, hc, hnr]

theorem ib_cmap (hnr : new ≠ r) :
    ((Childrenlist.insert_before s p r new) x).cmap = (s x).cmap := by
  cases hc : (s r).prev with
  | none => rw [ib_reduce_none hnr hc]; split <;> simp
  | some b => rw [ib_reduce_some hnr hc]; split <;> simp

theorem ib_parent (hnr : new ≠ r) :
    ((Childrenlist.insert_before s p r new) x).parent = (s x).parent := by
  cases hc : (s r).prev with
  | none => rw [ib_reduce_none hnr hc]; split <;> simp
  | some b => rw [ib_reduce_some hnr hc]; split <;> simp

theorem ib_parent_all :
    ((Childrenlist.insert_before s p r new) x).parent = (s x).parent := by
  by_cases hnr : new = r
  · subst hnr
    unfold Childrenlist.insert_before
    simp only [setPrev_prev_self]
    split <;> simp
  · exact ib_parent hnr

theorem ib_tail (hnr : new ≠ r) :
    ((Childrenlist.insert_before s p r new) x).tail = (s x).tail := by
  cases hc : (s r).prev with
  | none => rw [ib_reduce_none hnr hc]; split <;> simp
  | some b => rw [ib_reduce_some hnr hc]; split <;> simp

theorem ib_head_of_ne (hnr : new ≠ r) (hq : q ≠ p) :
    ((Childrenlist.insert_before s p r new) q).head = (s q).head := by
  cases hc : (s r).prev with
  | none => rw [ib_reduce_none hnr hc]; split <;> simp [setHead_head, hq]
  | some b => rw [ib_reduce_some hnr hc]; split <;> simp [setHead_head, hq]

theorem ib_prev_of_ne (hnr : new ≠ r) (hx1 : x ≠ new) (hx2 : x ≠ r) :
    ((Childrenlist.insert_before s p r new) x).prev = (s x).prev := by
  cases hc : (s r).prev with
  | none => rw [ib_reduce_none hnr hc]; split <;> simp [setPrev_prev, hx1, hx2]
  | some b => rw [ib_reduce_some hnr hc]; split <;> simp [setPrev_prev, hx1, hx2]

theorem ib_prev_new (hnr : new ≠ r) :
    ((Childrenlist.insert_before s p r new) new).prev = (s r).prev := by
  cases hc : (s r).prev with
  | none => rw [ib_reduce_none hnr hc]; split <;> simp [setPrev_prev, hnr, hc]
  | some b => rw [ib_reduce_some hnr hc]; split <;> simp [setPrev_prev, hnr, hc]

theorem ib_prev_r (hnr : new ≠ r) :
    ((Childrenlist.insert_before s p r new) r).prev = some new := by
  cases hc : (s r).prev with
  | none => rw [ib_reduce_none hnr hc]; split <;> simp [setPrev_prev]
  | some b => rw [ib_reduce_some hnr hc]; split <;> simp [setPrev_prev]

theorem ib_next_new (hnr : new ≠ r) (hb : (s r).prev ≠ some new) :
    ((Childrenlist.insert_before s p r new) new).next = some r := by
  cases hc : (s r).prev with
  | none => rw [ib_reduce_none hnr hc]; split <;> simp [setNext_next]
  | some b =>
    have hbn : new ≠ b := fun e => hb (by rw [hc, e])
    rw [ib_reduce_some hnr hc]
    split <;> simp [setNext_next, hbn]

theorem ib_next_b (hnr : new ≠ r) (hc : (s r).prev = some b) :
    ((Childrenlist.insert_before s p r new) b).next = some new := by
  rw [ib_reduce_some hnr hc]
  split <;> simp [setNext_next]

theorem ib_next_of_ne (hnr : new ≠ r) (hx1 : x ≠ new) (hx2 : (s r).prev ≠ some x) :
    ((Childrenlist.insert_before s p r new) x).next = (s x).next := by
  cases hc : (s r).prev with
  | none => rw [ib_reduce_none hnr hc]; split <;> simp [setNext_next, hx1]
  | some b =>
    have hxb : x ≠ b := fun e => hx2 (by rw [hc, e])
    rw [ib_reduce_some hnr hc]
    split <;> simp [setNext_next, hx1, hxb]

theorem ib_wf (hwf : wfList s p (l₁ ++ r :: l₂) = true) (hnd : (l₁ ++ r :: l₂).Nodup)
    (hnew : new ∉ l₁ ++ r :: l₂) :
    wfList (Childrenlist.insert_before s p r new) p (l₁ ++ new :: r :: l₂) = true := by
  have hnr : new ≠ r := fun e => hnew (by simp [e])
  have hrl₁ : r ∉ l₁ := fun hm => (List.disjoint_of_nodup_append hnd) hm (by simp)
  have hnew_l₁ : new ∉ l₁ := fun hm => hnew (by simp [hm])
  have hnew_l₂ : new ∉ l₂ := fun hm => hnew (by simp [hm])
  have hrl₂ : r ∉ l₂ := by
    have := (List.nodup_append.1 hnd).2.1
    simpa [List.nodup_cons] using fun h => ((List.nodup_cons.1 this).1 h)
  obtain ⟨hiter, hprev, htail⟩ := wfList_iff.1 hwf
  unfold iterates at hiter
  have hhead := wfList_head hwf
  -- decompose the prev chain
  rw [prevChain_append, Bool.and_eq_true] at hprev
  obtain ⟨hprev1, hprev2⟩ := hprev
  simp only [prevChain, Bool.and_eq_true, beq_iff_eq] at hprev2
  obtain ⟨hpr, hprev2⟩ := hprev2
  -- decompose the next chain
  obtain ⟨m, hseg1, hseg2⟩ := nextSeg_append_iff.1 hiter
  simp only [nextSeg, Bool.and_eq_true, beq_iff_eq] at hseg2
  obtain ⟨rfl, hseg2⟩ := hseg2
  rcases List.eq_nil_or_concat l₁ with rfl | ⟨l₁d, t₁, hcat⟩
  · have hc : (s r).prev = none := by simpa [lastOpt] using hpr
    have hhr : (s p).head = some r := by simpa using hhead
    have hX : Childrenlist.insert_before s p r new =
        setHead (setPrev (setPrev (setNext s new (some r)) new none) r (some new)) p
          (some new) := by
      rw [ib_reduce_none hnr hc, if_pos hhr]
    refine wfList_iff.2 ⟨?_, ?_, ?_⟩
    · unfold iterates
      have h1 : ((Childrenlist.insert_before s p r new) p).head = some new := by
        rw [hX]; simp [setHead_head]
      have h2 : ((Childrenlist.insert_before s p r new) new).next = some r := by
        rw [hX]; simp [setNext_next]
      have h3 : ((Childrenlist.insert_before s p r new) r).next = (s r).next := by
        rw [hX]; simp [setNext_next, Ne.symm hnr]
      have hcong : ∀ x ∈ l₂, ((Childrenlist.insert_before s p r new) x).next = (s x).next := by
        intro x hx
        have hx_new : x ≠ new := fun e => hnew_l₂ (e ▸ hx)
        rw [hX]
        simp [setNext_next, hx_new]
      simp only [List.nil_append, nextSeg, h1, h2, h3, Bool.and_eq_true, beq_iff_eq]
      refine ⟨trivial, trivial, ?_⟩
      rw [nextSeg_congr hcong]
      exact hseg2
    · have h4 : ((Childrenlist.insert_before s p r new) new).prev = none := by
        rw [← hc]
        exact ib_prev_new hnr
      have h5 : ((Childrenlist.insert_before s p r new) r).prev = some new :=
        ib_prev_r hnr
      have hcongp : ∀ x ∈ l₂, ((Childrenlist.insert_before s p r new) x).prev = (s x).prev := by
        intro x hx
        exact ib_prev_of_ne hnr (fun e => hnew_l₂ (e ▸ hx)) (fun e => hrl₂ (e ▸ hx))
      simp only [List.nil_append, prevChain, h4, h5, Bool.and_eq_true, beq_iff_eq]
      refine ⟨trivial, trivial, ?_⟩
      rw [prevChain_congr hcongp]
      exact hprev2
    · have h6 : ((Childrenlist.insert_before s p r new) p).tail = (s p).tail :=
        ib_tail hnr
      rw [h6, htail]
      simp [List.getLast?_cons_cons]
  · rw [List.concat_eq_append] at hcat
    subst hcat
    have hndl₁ : (l₁d ++ [t₁]).Nodup := List.Nodup.of_append_left hnd
    have ht₁l₁d : t₁ ∉ l₁d := fun hm => (List.disjoint_of_nodup_append hndl₁) hm (by simp)
    have ht₁_new : t₁ ≠ new := fun e => hnew_l₁ (by simp [e])
    have ht₁_r : t₁ ≠ r := fun e => hrl₁ (by simp [e])
    have ht₁l₂ : t₁ ∉ l₂ := fun hm =>
      (List.disjoint_of_nodup_append hnd) (show t₁ ∈ l₁d ++ [t₁] by simp)
        (show t₁ ∈ r :: l₂ by simp [hm])
    have hnew_l₁d : new ∉ l₁d := fun hm => hnew_l₁ (by simp [hm])
    have hpr2 : (s r).prev = some t₁ := by
      rw [hpr]
      unfold lastOpt
      rw [List.getLast?_concat]
    have hcond : (s p).head ≠ some r := by
      cases hz : (l₁d ++ [t₁]).head? with
      | none =>
        rw [List.head?_eq_none_iff] at hz
        exact absurd hz (by simp)
      | some z =>
        have hzmem : z ∈ l₁d ++ [t₁] := List.mem_of_mem_head? (by rw [hz]; rfl)
        have hzr : z ≠ r := fun e => hrl₁ (e ▸ hzmem)
        rw [hhead, List.head?_append, hz]
        intro hcontra
        exact hzr (by injection (show some z = some r from hcontra))
    obtain ⟨m2, hseg1a, hseg1b⟩ := nextSeg_append_iff.1 hseg1
    simp only [nextSeg, Bool.and_eq_true, beq_iff_eq] at hseg1b
    obtain ⟨rfl, hnt₁⟩ := hseg1b
    have hX : Childrenlist.insert_before s p r new =
        setNext (setPrev (setPrev (setNext s new (some r)) new (some t₁)) r (some new)) t₁
          (some new) := by
      rw [ib_reduce_some hnr hpr2, if_neg hcond]
    refine wfList_iff.2 ⟨?_, ?_, ?_⟩
    · unfold iterates
      have hXhead : ((Childrenlist.insert_before s p r new) p).head = (s p).head := by
        rw [hX]; simp
      have hXt₁ : ((Childrenlist.insert_before s p r new) t₁).next = some new := by
        rw [hX]; simp [setNext_next]
      have hXnew : ((Childrenlist.insert_before s p r new) new).next = some r := by
        rw [hX]; simp [setNext_next, Ne.symm ht₁_new]
      have hXr : ((Childrenlist.insert_before s p r new) r).next = (s r).next := by
        rw [hX]; simp [setNext_next, Ne.symm hnr, Ne.symm ht₁_r]
      have hcong : ∀ x ∈ l₁d, ((Childrenlist.insert_before s p r new) x).next = (s x).next := by
        intro x hx
        have h1 : x ≠ t₁ := fun e => ht₁l₁d (e ▸ hx)
        have h2 : x ≠ new := fun e => hnew_l₁d (e ▸ hx)
        rw [hX]
        simp [setNext_next, h1, h2]
      have hcong₂ : ∀ x ∈ l₂, ((Childrenlist.insert_before s p r new) x).next = (s x).next := by
        intro x hx
        have h1 : x ≠ t₁ := fun e => ht₁l₂ (e ▸ hx)
        have h2 : x ≠ new := fun e => hnew_l₂ (e ▸ hx)
        rw [hX]
        simp [setNext_next, h1, h2]
      rw [hXhead, List.append_assoc]
      refine nextSeg_append_of (m := some t₁) ?_ ?_
      · rw [nextSeg_congr hcong]
        exact hseg1a
      · rw [show [t₁] ++ new :: r :: l₂ = t₁ :: new :: r :: l₂ from rfl]
        simp only [nextSeg, hXt₁, hXnew, hXr, Bool.and_eq_true, beq_iff_eq]
        refine ⟨trivial, trivial, trivial, ?_⟩
        rw [nextSeg_congr hcong₂]
        exact hseg2
    · have hXpnew : ((Childrenlist.insert_before s p r new) new).prev = some t₁ := by
        rw [← hpr2]
        exact ib_prev_new hnr
      have hXpr : ((Childrenlist.insert_before s p r new) r).prev = some new :=
        ib_prev_r hnr
      have hcongp : ∀ x ∈ l₁d ++ [t₁],
          ((Childrenlist.insert_before s p r new) x).prev = (s x).prev := by
        intro x hx
        exact ib_prev_of_ne hnr (fun e => hnew_l₁ (e ▸ hx)) (fun e => hrl₁ (e ▸ hx))
      have hcongp₂ : ∀ x ∈ l₂, ((Childrenlist.insert_before s p r new) x).prev = (s x).prev := by
        intro x hx
        exact ib_prev_of_ne hnr (fun e => hnew_l₂ (e ▸ hx)) (fun e => hrl₂ (e ▸ hx))
      rw [prevChain_append, Bool.and_eq_true]
      constructor
      · rw [prevChain_congr hcongp]
        exact hprev1
      · have hlast : lastOpt none (l₁d ++ [t₁]) = some t₁ := by
          unfold lastOpt
          rw [List.getLast?_concat]
        rw [hlast]
        simp only [prevChain, hXpnew, hXpr, Bool.and_eq_true, beq_iff_eq]
        refine ⟨trivial, trivial, ?_⟩
        rw [prevChain_congr hcongp₂]
        exact hprev2
    · have h6 : ((Childrenlist.insert_before s p r new) p).tail = (s p).tail :=
        ib_tail hnr
      rw [h6, htail, List.getLast?_append_cons, List.getLast?_append_cons,
        List.getLast?_cons_cons]

end InsertBeforeLemmas

section DeleteLemmas

variable {s : State} {p c q x : String} {l l₁ l₂ : List String} {a : String}

theorem mem_of_getLast? (h : l.getLast? = some a) : a ∈ l := by
  have hsplit := List.dropLast_append_getLast? a (by rw [h]; rfl)
  rw [← hsplit]
  simp

theorem delete_spec (hwf : wfList s p (l₁ ++ c :: l₂) = true)
    (hnd : (l₁ ++ c :: l₂).Nodup) :
    ∃ s2, Childrenlist.delete s p c = some s2 ∧
      wfList s2 p (l₁ ++ l₂) = true ∧
      (∀ x, (s2 x).cmap = (s x).cmap) ∧
      (∀ x, (s2 x).parent = (s x).parent) ∧
      (∀ x, x ≠ p → (s2 x).head = (s x).head ∧ (s2 x).tail = (s x).tail) ∧
      (∀ x, x ∉ l₁ ++ c :: l₂ → (s2 x).next = (s x).next ∧ (s2 x).prev = (s x).prev) ∧
      (s2 c).prev = (s c).prev ∧ (s2 c).next = (s c).next := by
  obtain ⟨hiter, hprev, htail⟩ := wfList_iff.1 hwf
  unfold iterates at hiter
  have hhead := wfList_head hwf
  rw [prevChain_append, Bool.and_eq_true] at hprev
  obtain ⟨hprev1, hprev2⟩ := hprev
  simp only [prevChain, Bool.and_eq_true, beq_iff_eq] at hprev2
  obtain ⟨hpc, hprev2⟩ := hprev2
  obtain ⟨m, hseg1, hseg2⟩ := nextSeg_append_iff.1 hiter
  simp only [nextSeg, Bool.and_eq_true, beq_iff_eq] at hseg2
  obtain ⟨rfl, hseg2⟩ := hseg2
  have hcl₁ : c ∉ l₁ := fun hm => (List.disjoint_of_nodup_append hnd) hm (by simp)
  have hcl₂ : c ∉ l₂ := by
    have h2 := (List.nodup_append.1 hnd).2.1
    exact (List.nodup_cons.1 h2).1
  cases l₂ with
  | nil =>
    have hcnext : (s c).next = none := by simpa [nextSeg] using hseg2
    have htailc : (s p).tail = some c := by
      rw [htail, List.getLast?_append_cons]
      rfl
    rcases List.eq_nil_or_concat l₁ with rfl | ⟨l₁d, t₁, hcat⟩
    · have hheadc : (s p).head = some c := by simpa using hhead
      have hcprev : (s c).prev = none := by simpa [lastOpt] using hpc
      refine ⟨setTail (setHead s p none) p none, ?_, ?_, ?_, ?_, ?_, ?_, ?_, ?_⟩
      · simp [Childrenlist.delete, hheadc, hcnext, hcprev, htailc]
      · simp [wfList, iterates, nextSeg, prevChain, setHead_head, setTail_tail]
      · intro x; simp
      · intro x; simp
      · intro x hx; simp [setHead_head, setTail_tail, hx]
      · intro x hx; simp
      · simp [hcprev]
      · simp [hcnext]
    · rw [List.concat_eq_append] at hcat
      subst hcat
      have hndl₁ : (l₁d ++ [t₁]).Nodup := List.Nodup.of_append_left hnd
      have ht₁l₁d : t₁ ∉ l₁d := fun hm => (List.disjoint_of_nodup_append hndl₁) hm (by simp)
      have ht₁c : t₁ ≠ c := fun e => hcl₁ (by simp [e])
      have hcprev : (s c).prev = some t₁ := by
        rw [hpc]
        unfold lastOpt
        rw [List.getLast?_concat]
      have hheadne : (s p).head ≠ some c := by
        cases hz : (l₁d ++ [t₁]).head? with
        | none =>
          rw [List.head?_eq_none_iff] at hz
          exact absurd hz (by simp)
        | some z =>
          have hzmem : z ∈ l₁d ++ [t₁] := List.mem_of_mem_head? (by rw [hz]; rfl)
          have hzc : z ≠ c := fun e => hcl₁ (e ▸ hzmem)
          rw [hhead, List.head?_append, hz]
          intro hcontra
          exact hzc (by injection (show some z = some c from hcontra))
      obtain ⟨m2, hseg1a, hseg1b⟩ := nextSeg_append_iff.1 hseg1
      simp only [nextSeg, Bool.and_eq_true, beq_iff_eq] at hseg1b
      obtain ⟨rfl, hnt₁⟩ := hseg1b
      refine ⟨setTail (setNext s t₁ none) p (some t₁), ?_, ?_, ?_, ?_, ?_, ?_, ?_, ?_⟩
      · simp [Childrenlist.delete, hheadne, hcnext, hcprev, htailc]
      · refine wfList_iff.2 ⟨?_, ?_, ?_⟩
        · unfold iterates
          have hh : ((setTail (setNext s t₁ none) p (some t₁)) p).head = (s p).head := by simp
          have hcong : ∀ x ∈ l₁d,
              ((setTail (setNext s t₁ none) p (some t₁)) x).next = (s x).next := by
            intro x hx
            have h1 : x ≠ t₁ := fun e => ht₁l₁d (e ▸ hx)
            simp [setNext_next, h1]
          have ht : ((setTail (setNext s t₁ none) p (some t₁)) t₁).next = none := by
            simp [setNext_next]
          rw [hh, List.append_nil]
          refine nextSeg_append_of (m := some t₁) ?_ ?_
          · rw [nextSeg_congr hcong]
            exact hseg1a
          · simp [nextSeg, ht]
        · rw [List.append_nil]
          have hcongp : ∀ x ∈ l₁d ++ [t₁],
              ((setTail (setNext s t₁ none) p (some t₁)) x).prev = (s x).prev := by
            intro x hx
            simp
          rw [prevChain_congr hcongp]
          exact hprev1
        · rw [List.append_nil]
          simp [setTail_tail, List.getLast?_concat]
      · intro x; simp
      · intro x; simp
      · intro x hx; simp [setTail_tail, hx]
      · intro x hx
        have h1 : x ≠ t₁ := fun e => hx (by simp [e])
        simp [setNext_next, h1]
      · simp
      · simp [setNext_next, ht₁c, hcnext]
  | cons h₂ l₂t =>
    simp only [nextSeg, Bool.and_eq_true, beq_iff_eq] at hseg2
    obtain ⟨hcnext, hseg2⟩ := hseg2
    simp only [prevChain, Bool.and_eq_true, beq_iff_eq] at hprev2
    obtain ⟨hph₂, hprev2⟩ := hprev2
    have hndl₂ : (h₂ :: l₂t).Nodup := ((List.nodup_append.1 hnd).2.1).of_cons
    have hh₂l₂t : h₂ ∉ l₂t := (List.nodup_cons.1 hndl₂).1
    have hch₂ : c ≠ h₂ := fun e => hcl₂ (by simp [e])
    have hh₂l₁ : h₂ ∉ l₁ := fun hm => (List.disjoint_of_nodup_append hnd) hm (by simp)
    have htailne : (s p).tail ≠ some c := by
      rw [htail, List.getLast?_append_cons, List.getLast?_cons_cons]
      cases hg : (h₂ :: l₂t).getLast? with
      | none => simp
      | some z =>
        have hzmem : z ∈ h₂ :: l₂t := mem_of_getLast? hg
        have hzc : z ≠ c := fun e => hcl₂ (e ▸ hzmem)
        simp [hzc]
    rcases List.eq_nil_or_concat l₁ with rfl | ⟨l₁d, t₁, hcat⟩
    · have hheadc : (s p).head = some c := by simpa using hhead
      have hcprev : (s c).prev = none := by simpa [lastOpt] using hpc
      refine ⟨setPrev (setHead s p (some h₂)) h₂ none, ?_, ?_, ?_, ?_, ?_, ?_, ?_, ?_⟩
      · simp [Childrenlist.delete, hheadc, hcnext, hcprev, htailne]
      · refine wfList_iff.2 ⟨?_, ?_, ?_⟩
        · unfold iterates
          have hh : ((setPrev (setHead s p (some h₂)) h₂ none) p).head = some h₂ := by
            simp [setHead_head]
          rw [hh, List.nil_append]
          have hcong : ∀ x ∈ l₂t,
              ((setPrev (setHead s p (some h₂)) h₂ none) x).next = (s x).next := by
            intro x hx
            simp
          simp only [nextSeg, Bool.and_eq_true, beq_iff_eq]
          refine ⟨trivial, ?_⟩
          have hnx : ((setPrev (setHead s p (some h₂)) h₂ none) h₂).next = (s h₂).next := by
            simp
          rw [hnx, nextSeg_congr hcong]
          exact hseg2
        · rw [List.nil_append]
          have hp1 : ((setPrev (setHead s p (some h₂)) h₂ none) h₂).prev = none := by
            simp [setPrev_prev]
          have hcongp : ∀ x ∈ l₂t,
              ((setPrev (setHead s p (some h₂)) h₂ none) x).prev = (s x).prev := by
            intro x hx
            have h1 : x ≠ h₂ := fun e => hh₂l₂t (e ▸ hx)
            simp [setPrev_prev, h1]
          simp only [prevChain, Bool.and_eq_true, beq_iff_eq]
          refine ⟨by rw [hp1], ?_⟩
          rw [prevChain_congr hcongp]
          exact hprev2
        · rw [List.nil_append]
          have ht : ((setPrev (setHead s p (some h₂)) h₂ none) p).tail = (s p).tail := by simp
          rw [ht, htail, List.getLast?_append_cons, List.getLast?_cons_cons]
      · intro x; simp
      · intro x; simp
      · intro x hx; simp [setHead_head, hx]
      · intro x hx
        have h1 : x ≠ h₂ := fun e => hx (by simp [e])
        simp [setPrev_prev, h1]
      · simp [setPrev_prev, hch₂, hcprev]
      · simp
    · rw [List.concat_eq_append] at hcat
      subst hcat
      have hndl₁ : (l₁d ++ [t₁]).Nodup := List.Nodup.of_append_left hnd
      have ht₁l₁d : t₁ ∉ l₁d := fun hm => (List.disjoint_of_nodup_append hndl₁) hm (by simp)
      have ht₁c : t₁ ≠ c := fun e => hcl₁ (by simp [e])
      have ht₁h₂ : t₁ ≠ h₂ := fun e => hh₂l₁ (by simp [← e])
      have ht₁l₂t : t₁ ∉ l₂t := fun hm =>
        (List.disjoint_of_nodup_append hnd) (show t₁ ∈ l₁d ++ [t₁] by simp)
          (show t₁ ∈ c :: h₂ :: l₂t by simp [hm])
      have hcprev : (s c).prev = some t₁ := by
        rw [hpc]
        unfold lastOpt
        rw [List.getLast?_concat]
      have hheadne : (s p).head ≠ some c := by
        cases hz : (l₁d ++ [t₁]).head? with
        | none =>
          rw [List.head?_eq_none_iff] at hz
          exact absurd hz (by simp)
        | some z =>
          have hzmem : z ∈ l₁d ++ [t₁] := List.mem_of_mem_head? (by rw [hz]; rfl)
          have hzc : z ≠ c := fun e => hcl₁ (e ▸ hzmem)
          rw [hhead, List.head?_append, hz]
          intro hcontra
          exact hzc (by injection (show some z = some c from hcontra))
      obtain ⟨m2, hseg1a, hseg1b⟩ := nextSeg_append_iff.1 hseg1
      simp only [nextSeg, Bool.and_eq_true, beq_iff_eq] at hseg1b
      obtain ⟨rfl, hnt₁⟩ := hseg1b
      refine ⟨setPrev (setNext s t₁ (some h₂)) h₂ (some t₁), ?_, ?_, ?_, ?_, ?_, ?_, ?_, ?_⟩
      · simp [Childrenlist.delete, hheadne, hcnext, hcprev, htailne, setNext_next,
          Ne.symm ht₁c]
      · refine wfList_iff.2 ⟨?_, ?_, ?_⟩
        · unfold iterates
          have hh : ((setPrev (setNext s t₁ (some h₂)) h₂ (some t₁)) p).head = (s p).head := by
            simp
          have hcong : ∀ x ∈ l₁d,
              ((setPrev (setNext s t₁ (some h₂)) h₂ (some t₁)) x).next = (s x).next := by
            intro x hx
            have h1 : x ≠ t₁ := fun e => ht₁l₁d (e ▸ hx)
            simp [setNext_next, h1]
          have ht : ((setPrev (setNext s t₁ (some h₂)) h₂ (some t₁)) t₁).next = some h₂ := by
            simp [setNext_next]
          have hnx : ((setPrev (setNext s t₁ (some h₂)) h₂ (some t₁)) h₂).next = (s h₂).next := by
            simp [setNext_next, Ne.symm ht₁h₂]
          have hcong₂ : ∀ x ∈ l₂t,
              ((setPrev (setNext s t₁ (some h₂)) h₂ (some t₁)) x).next = (s x).next := by
            intro x hx
            have h1 : x ≠ t₁ := fun e => ht₁l₂t (e ▸ hx)
            simp [setNext_next, h1]
          rw [hh, List.append_assoc]
          refine nextSeg_append_of (m := some t₁) ?_ ?_
          · rw [nextSeg_congr hcong]
            exact hseg1a
          · rw [show [t₁] ++ h₂ :: l₂t = t₁ :: h₂ :: l₂t from rfl]
            simp only [nextSeg, ht, hnx, Bool.and_eq_true, beq_iff_eq]
            refine ⟨trivial, trivial, ?_⟩
            rw [nextSeg_congr hcong₂]
            exact hseg2
        · rw [prevChain_append, Bool.and_eq_true]
          constructor
          · have hcongp : ∀ x ∈ l₁d ++ [t₁],
                ((setPrev (setNext s t₁ (some h₂)) h₂ (some t₁)) x).prev = (s x).prev := by
              intro x hx
              have h1 : x ≠ h₂ := fun e => hh₂l₁ (e ▸ hx)
              simp [setPrev_prev, h1]
            rw [prevChain_congr hcongp]
            exact hprev1
          · have hlast : lastOpt none (l₁d ++ [t₁]) = some t₁ := by
              unfold lastOpt
              rw [List.getLast?_concat]
            rw [hlast]
            have hp1 : ((setPrev (setNext s t₁ (some h₂)) h₂ (some t₁)) h₂).prev = some t₁ := by
              simp [setPrev_prev]
            have hcongp₂ : ∀ x ∈ l₂t,
                ((setPrev (setNext s t₁ (some h₂)) h₂ (some t₁)) x).prev = (s x).prev := by
              intro x hx
              have h1 : x ≠ h₂ := fun e => hh₂l₂t (e ▸ hx)
              simp [setPrev_prev, h1]
            simp only [prevChain, Bool.and_eq_true, beq_iff_eq]
            refine ⟨by rw [hp1], ?_⟩
            rw [prevChain_congr hcongp₂]
            exact hprev2
        · have ht : ((setPrev (setNext s t₁ (some h₂)) h₂ (some t₁)) p).tail = (s p).tail := by
            simp
          rw [ht, htail, List.getLast?_append_cons, List.getLast?_cons_cons,
            List.getLast?_append_cons]
      · intro x; simp
      · intro x; simp
      · intro x hx; simp
      · intro x hx
        have h1 : x ≠ t₁ := fun e => hx (by simp [e])
        have h2 : x ≠ h₂ := fun e => hx (by simp [e])
        simp [setNext_next, setPrev_prev, h1, h2]
      · simp [setPrev_prev, hch₂]
      · simp [setNext_next, Ne.symm ht₁c]

end DeleteLemmas

section StepLemmas

variable {s s2 : State} {ch : Ch} {p q r new old c x y ret : String} {l : List String}
variable {o : Option String}

theorem prevChain_mem (h : prevChain s o l = true) (hx : x ∈ l)
    (hy : (s x).prev = some y) : some y = o ∨ y ∈ l := by
  induction l generalizing o with
  | nil => cases hx
  | cons z l ih =>
    simp only [prevChain, Bool.and_eq_true, beq_iff_eq] at h
    obtain ⟨hz, h⟩ := h
    rcases List.mem_cons.1 hx with rfl | hx2
    · left
      rw [← hy, hz]
    · rcases ih h hx2 with hcase | hcase
      · right
        have : y = z := by injection hcase
        simp [this]
      · right
        simp [hcase]

theorem wfList_prev_mem (hwf : wfList s p l = true) (hx : x ∈ l)
    (hy : (s x).prev = some y) : y ∈ l := by
  obtain ⟨-, hprev, -⟩ := wfList_iff.1 hwf
  rcases prevChain_mem hprev hx hy with hcase | hcase
  · cases hcase
  · exact hcase

theorem wfList_setCmap {ks : List String} {m : List String} :
    wfList (setCmap s x ks) q m = wfList s q m :=
  wfList_congr (by simp) (by simp) (fun y _ => by simp) (fun y _ => by simp)

theorem WF_init : WF initState ch0 := by
  refine ⟨?_, ?_, ?_, ?_, ?_⟩
  · intro p
    simp [wfList, iterates, nextSeg, prevChain, initState, ch0]
  · intro p
    simp [ch0]
  · intro p x
    simp [initState, ch0]
  · intro p
    simp [initState]
  · intro p q x hp hq
    simp [ch0] at hp
  
theorem step_insertAppend (hWF : WF s ch) (hnew : ∀ q, new ∉ ch q)
    (hok : Node.insert_before s p new none = Node.Result.ok s2 ret) :
    WF s2 (Function.update ch p (ch p ++ [new])) := by
  obtain ⟨hwf, hnd, hcm, hcnd, hdisj⟩ := hWF
  unfold Node.insert_before at hok
  injection hok with h1 h2
  subst h1
  have htailmem : ∀ x, (s p).tail = some x → x ∈ ch p := by
    intro x hx
    rw [wfList_tail (hwf p)] at hx
    exact mem_of_getLast? hx
  refine ⟨?_, ?_, ?_, ?_, ?_⟩
  · intro q
    by_cases hq : q = p
    · subst hq
      rw [Function.update_same, wfList_setCmap]
      exact append_wf (hwf q) (hnd q) (hnew q)
    · rw [Function.update_noteq hq, wfList_setCmap]
      have hnexts : ∀ x ∈ ch q, ((Childrenlist.append s p new) x).next = (s x).next := by
        intro x hx
        refine append_next_of_ne (fun e => hnew q (e ▸ hx)) ?_
        intro ht
        exact hq (hdisj q p x hx (htailmem x ht))
      have hprevs : ∀ x ∈ ch q, ((Childrenlist.append s p new) x).prev = (s x).prev :=
        fun x hx => append_prev_of_ne (fun e => hnew q (e ▸ hx))
      rw [wfList_congr (append_head_of_ne hq) (append_tail_of_ne hq) hnexts hprevs]
      exact hwf q
  · intro q
    by_cases hq : q = p
    · subst hq
      rw [Function.update_same, List.nodup_append]
      exact ⟨hnd q, by simp, fun a ha hb => hnew q (by simp at hb; subst hb; exact ha)⟩
    · rw [Function.update_noteq hq]
      exact hnd q
  · intro q x
    by_cases hq : q = p
    · subst hq
      rw [Function.update_same]
      rw [show ((setCmap (Childrenlist.append s q new) q
        (Node.insertKey ((Childrenlist.append s q new) q).cmap new)) q).cmap =
        Node.insertKey ((Childrenlist.append s q new) q).cmap new from by simp]
      rw [mem_insertKey, append_cmap]
      rw [List.mem_append]
      simp [hcm q x]
    · rw [Function.update_noteq hq, setCmap_cmap_of_ne hq, append_cmap]
      exact hcm q x
  · intro q
    by_cases hq : q = p
    · subst hq
      rw [show ((setCmap (Childrenlist.append s q new) q
        (Node.insertKey ((Childrenlist.append s q new) q).cmap new)) q).cmap =
        Node.insertKey ((Childrenlist.append s q new) q).cmap new from by simp]
      rw [append_cmap]
      exact nodup_insertKey (hcnd q)
    · rw [setCmap_cmap_of_ne hq, append_cmap]
      exact hcnd q
  · intro q q2 x hxq hxq2
    by_cases hq : q = p <;> by_cases hq2 : q2 = p
    · rw [hq, hq2]
    · subst hq
      rw [Function.update_same] at hxq
      rw [Function.update_noteq hq2] at hxq2
      rcases List.mem_append.1 hxq with hin | hin
      · exact (hdisj q q2 x hin hxq2).symm ▸ rfl
      · simp at hin
        subst hin
        exact absurd hxq2 (hnew q2)
    · subst hq2
      rw [Function.update_same] at hxq2
      rw [Function.update_noteq hq] at hxq
      rcases List.mem_append.1 hxq2 with hin | hin
      · exact hdisj q q2 x hxq hin
      · simp at hin
        subst hin
        exact absurd hxq (hnew q)
    · rw [Function.update_noteq hq] at hxq
      rw [Function.update_noteq hq2] at hxq2
      exact hdisj q q2 x hxq hxq2

theorem step_insertRef (hWF : WF s ch) (hnew : ∀ q, new ∉ ch q)
    (hok : Node.insert_before s p new (some r) = Node.Result.ok s2 ret) :
    WF s2 (Function.update ch p (insBef (ch p) r new)) := by
  obtain ⟨hwf, hnd, hcm, hcnd, hdisj⟩ := hWF
  simp only [Node.insert_before] at hok
  cases hhc : Node.has_as_child s p r with
  | false =>
    rw [hhc] at hok
    rw [if_neg (by simp)] at hok
    exact Node.Result.noConfusion hok
  | true =>
    rw [hhc, if_pos rfl] at hok
    injection hok with h1 h2
    subst h1
    have hrch : r ∈ ch p := (hcm p r).1 (by simpa [Node.has_as_child] using hhc)
    have hnr : new ≠ r := fun e => hnew p (e ▸ hrch)
    have hprevr : ∀ x, (s r).prev = some x → x ∈ ch p := fun x hx =>
      wfList_prev_mem (hwf p) hrch hx
    refine ⟨?_, ?_, ?_, ?_, ?_⟩
    · intro q
      by_cases hq : q = p
      · subst hq
        rw [Function.update_same, wfList_setCmap]
        obtain ⟨l₁, l₂, hrl₁, heq, herase⟩ := List.exists_erase_eq hrch
        have hwfp := hwf q
        have hndp := hnd q
        rw [heq] at hwfp hndp
        have hnewp : new ∉ l₁ ++ r :: l₂ := heq ▸ hnew q
        have hgoal := ib_wf hwfp hndp hnewp
        rw [heq, insBef_eq hrl₁]
        exact hgoal
      · rw [Function.update_noteq hq, wfList_setCmap]
        have hnexts : ∀ x ∈ ch q, ((Childrenlist.insert_before s p r new) x).next = (s x).next := by
          intro x hx
          refine ib_next_of_ne hnr (fun e => hnew q (e ▸ hx)) ?_
          intro hcontra
          exact hq (hdisj q p x hx (hprevr x hcontra))
        have hprevs : ∀ x ∈ ch q, ((Childrenlist.insert_before s p r new) x).prev = (s x).prev := by
          intro x hx
          exact ib_prev_of_ne hnr (fun e => hnew q (e ▸ hx))
            (fun e => hq (hdisj q p x hx (e ▸ hrch)))
        rw [wfList_congr (ib_head_of_ne hnr hq) (ib_tail hnr) hnexts hprevs]
        exact hwf q
    · intro q
      by_cases hq : q = p
      · subst hq
        rw [Function.update_same]
        exact nodup_insBef (hnd q) (hnew q)
      · rw [Function.update_noteq hq]
        exact hnd q
    · intro q x
      by_cases hq : q = p
      · subst hq
        rw [Function.update_same]
        rw [show ((setCmap (Childrenlist.insert_before s q r new) q
          (Node.insertKey ((Childrenlist.insert_before s q r new) q).cmap new)) q).cmap =
          Node.insertKey ((Childrenlist.insert_before s q r new) q).cmap new from by simp]
        rw [mem_insertKey, ib_cmap hnr, mem_insBef]
        simp [hcm q x]
      · rw [Function.update_noteq hq, setCmap_cmap_of_ne hq, ib_cmap hnr]
        exact hcm q x
    · intro q
      by_cases hq : q = p
      · rw [show ((setCmap (Childrenlist.insert_before s p r new) p
          (Node.insertKey ((Childrenlist.insert_before s p r new) p).cmap new)) q).cmap =
          Node.insertKey ((Childrenlist.insert_before s p r new) p).cmap new from by
            rw [hq]; simp]
        rw [ib_cmap hnr]
        exact nodup_insertKey (hcnd p)
      · rw [setCmap_cmap_of_ne hq, ib_cmap hnr]
        exact hcnd q
    · intro q q2 x hxq hxq2
      by_cases hq : q = p <;> by_cases hq2 : q2 = p
      · rw [hq, hq2]
      · subst hq
        rw [Function.update_same] at hxq
        rw [Function.update_noteq hq2] at hxq2
        rcases mem_insBef.1 hxq with hin | rfl
        · exact hdisj q q2 x hin hxq2
        · exact absurd hxq2 (hnew q2)
      · subst hq2
        rw [Function.update_same] at hxq2
        rw [Function.update_noteq hq] at hxq
        rcases mem_insBef.1 hxq2 with hin | rfl
        · exact hdisj q q2 x hxq hin
        · exact absurd hxq (hnew q)
      · rw [Function.update_noteq hq] at hxq
        rw [Function.update_noteq hq2] at hxq2
        exact hdisj q q2 x hxq hxq2

theorem step_remove (hWF : WF s ch)
    (hok : Node.remove_child s p c = Node.Result.ok s2 ret) :
    WF s2 (Function.update ch p ((ch p).erase c)) := by
  obtain ⟨hwf, hnd, hcm, hcnd, hdisj⟩ := hWF
  unfold Node.remove_child at hok
  cases hhc : Node.has_as_child s p c with
  | false =>
    rw [hhc] at hok
    rw [if_neg (by simp)] at hok
    exact Node.Result.noConfusion hok
  | true =>
    rw [hhc, if_pos rfl] at hok
    have hcch : c ∈ ch p := (hcm p c).1 (by simpa [Node.has_as_child] using hhc)
    obtain ⟨l₁, l₂, hcl₁, heq, herase⟩ := List.exists_erase_eq hcch
    have hwfp := hwf p
    have hndp := hnd p
    rw [heq] at hwfp hndp
    obtain ⟨s_c, hdel, hwfc, hcmapc, hparc, hht, hout, hpc2, hnc2⟩ := delete_spec hwfp hndp
    rw [hdel] at hok
    injection hok with h1 h2
    subst h1
    refine ⟨?_, ?_, ?_, ?_, ?_⟩
    · intro q
      by_cases hq : q = p
      · subst hq
        rw [Function.update_same, wfList_setCmap, herase]
        exact hwfc
      · rw [Function.update_noteq hq, wfList_setCmap]
        have hnexts : ∀ x ∈ ch q, (s_c x).next = (s x).next := by
          intro x hx
          refine (hout x ?_).1
          intro hmem
          rw [← heq] at hmem
          exact hq (hdisj q p x hx hmem)
        have hprevs : ∀ x ∈ ch q, (s_c x).prev = (s x).prev := by
          intro x hx
          refine (hout x ?_).2
          intro hmem
          rw [← heq] at hmem
          exact hq (hdisj q p x hx hmem)
        rw [wfList_congr (hht q hq).1 (hht q hq).2 hnexts hprevs]
        exact hwf q
    · intro q
      by_cases hq : q = p
      · subst hq
        rw [Function.update_same]
        exact (hnd q).erase c
      · rw [Function.update_noteq hq]
        exact hnd q
    · intro q x
      by_cases hq : q = p
      · subst hq
        rw [Function.update_same]
        rw [show ((setCmap s_c q ((s_c q).cmap.erase c)) q).cmap =
          (s_c q).cmap.erase c from by simp]
        rw [hcmapc q]
        rw [List.Nodup.mem_erase_iff (hcnd q), List.Nodup.mem_erase_iff (hnd q)]
        simp [hcm q x]
      · rw [Function.update_noteq hq, setCmap_cmap_of_ne hq, hcmapc]
        exact hcm q x
    · intro q
      by_cases hq : q = p
      · rw [show ((setCmap s_c p ((s_c p).cmap.erase c)) q).cmap =
          (s_c p).cmap.erase c from by rw [hq]; simp]
        rw [hcmapc]
        exact (hcnd p).erase c
      · rw [setCmap_cmap_of_ne hq, hcmapc]
        exact hcnd q
    · intro q q2 x hxq hxq2
      by_cases hq : q = p <;> by_cases hq2 : q2 = p
      · rw [hq, hq2]
      · subst hq
        rw [Function.update_same] at hxq
        rw [Function.update_noteq hq2] at hxq2
        have hin : x ∈ ch q := ((hnd q).mem_erase_iff.1 hxq).2
        exact hdisj q q2 x hin hxq2
      · subst hq2
        rw [Function.update_same] at hxq2
        rw [Function.update_noteq hq] at hxq
        have hin : x ∈ ch q2 := ((hnd q2).mem_erase_iff.1 hxq2).2
        exact hdisj q q2 x hxq hin
      · rw [Function.update_noteq hq] at hxq
        rw [Function.update_noteq hq2] at hxq2
        exact hdisj q q2 x hxq hxq2

theorem step_replace (hWF : WF s ch) (hnew : ∀ q, new ∉ ch q)
    (hok : Node.replace_child s p old new = Node.Result.ok s2 ret) :
    WF s2 (Function.update ch p ((insBef (ch p) old new).erase old)) := by
  obtain ⟨hwf, hnd, hcm, hcnd, hdisj⟩ := hWF
  unfold Node.replace_child at hok
  cases hhc : Node.has_as_child s p old with
  | false =>
    rw [hhc] at hok
    rw [if_neg (by simp)] at hok
    exact Node.Result.noConfusion hok
  | true =>
    rw [hhc, if_pos rfl] at hok
    have holdch : old ∈ ch p := (hcm p old).1 (by simpa [Node.has_as_child] using hhc)
    have hnr : new ≠ old := fun e => hnew p (e ▸ holdch)
    have hprevold : ∀ x, (s old).prev = some x → x ∈ ch p := fun x hx =>
      wfList_prev_mem (hwf p) holdch hx
    obtain ⟨l₁, l₂, holdl₁, heq, herase⟩ := List.exists_erase_eq holdch
    have hwfp := hwf p
    have hndp := hnd p
    rw [heq] at hwfp hndp
    have hnewp : new ∉ l₁ ++ old :: l₂ := heq ▸ hnew p
    have hwf_a := ib_wf hwfp hndp hnewp
    have hnd_a : (l₁ ++ new :: old :: l₂).Nodup := by
      have hx := nodup_insBef hndp hnewp (r := old)
      rwa [insBef_eq holdl₁] at hx
    have hassoc : l₁ ++ new :: old :: l₂ = (l₁ ++ [new]) ++ old :: l₂ := by
      rw [List.append_assoc]
      rfl
    have hwf_b : wfList (setCmap (Childrenlist.insert_before s p old new) p
        (Node.insertKey ((Childrenlist.insert_before s p old new) p).cmap new)) p
        ((l₁ ++ [new]) ++ old :: l₂) = true := by
      rw [wfList_setCmap, ← hassoc]
      exact hwf_a
    have hnd_b : ((l₁ ++ [new]) ++ old :: l₂).Nodup := by
      rw [← hassoc]
      exact hnd_a
    obtain ⟨s_c, hdel, hwfc, hcmapc, hparc, hht, hout, hpc2, hnc2⟩ := delete_spec hwf_b hnd_b
    simp only [hdel] at hok
    injection hok with h1 h2
    subst h1
    have hins : insBef (ch p) old new = l₁ ++ new :: old :: l₂ := by
      rw [heq]
      exact insBef_eq holdl₁
    have hger : (insBef (ch p) old new).erase old = (l₁ ++ [new]) ++ l₂ := by
      rw [hins, hassoc, List.erase_append_right _ ?_, List.erase_cons_head]
      intro hmem
      rcases List.mem_append.1 hmem with hin | hin
      · exact holdl₁ hin
      · simp at hin
        exact hnr hin.symm
    have hcmap_b : ∀ y, ((setCmap (Childrenlist.insert_before s p old new) p
        (Node.insertKey ((Childrenlist.insert_before s p old new) p).cmap new)) y).cmap =
        if y = p then Node.insertKey (s y).cmap new else (s y).cmap := by
      intro y
      by_cases hy : y = p
      · subst hy
        simp [ib_cmap hnr]
      · rw [setCmap_cmap_of_ne hy, ib_cmap hnr, if_neg hy]
    refine ⟨?_, ?_, ?_, ?_, ?_⟩
    · intro q
      by_cases hq : q = p
      · subst hq
        rw [Function.update_same, wfList_setCmap, hger]
        exact hwfc
      · rw [Function.update_noteq hq, wfList_setCmap]
        have hmemlist : ∀ x ∈ ch q, x ∉ (l₁ ++ [new]) ++ old :: l₂ := by
          intro x hx hmem
          rw [← hassoc] at hmem
          rcases List.mem_append.1 hmem with hin | hin
          · exact hq (hdisj q p x hx (by rw [heq]; exact List.mem_append.2 (Or.inl hin)))
          · rcases List.mem_cons.1 hin with rfl | hin2
            · exact hnew q hx
            · have hxp : x ∈ ch p := by
                rw [heq]
                rcases List.mem_cons.1 hin2 with rfl | hin3
                · exact List.mem_append.2 (Or.inr (by simp))
                · exact List.mem_append.2 (Or.inr (by simp [hin3]))
              exact hq (hdisj q p x hx hxp)
        have hnexts : ∀ x ∈ ch q, (s_c x).next = (s x).next := by
          intro x hx
          rw [(hout x (hmemlist x hx)).1]
          rw [show ((setCmap (Childrenlist.insert_before s p old new) p
            (Node.insertKey ((Childrenlist.insert_before s p old new) p).cmap new)) x).next =
            ((Childrenlist.insert_before s p old new) x).next from by simp]
          refine ib_next_of_ne hnr (fun e => hnew q (e ▸ hx)) ?_
          intro hcontra
          exact hq (hdisj q p x hx (hprevold x hcontra))
        have hprevs : ∀ x ∈ ch q, (s_c x).prev = (s x).prev := by
          intro x hx
          rw [(hout x (hmemlist x hx)).2]
          rw [show ((setCmap (Childrenlist.insert_before s p old new) p
            (Node.insertKey ((Childrenlist.insert_before s p old new) p).cmap new)) x).prev =
            ((Childrenlist.insert_before s p old new) x).prev from by simp]
          exact ib_prev_of_ne hnr (fun e => hnew q (e ▸ hx))
            (fun e => hq (hdisj q p x hx (e ▸ holdch)))
        have hheads : (s_c q).head = (s q).head := by
          rw [(hht q hq).1]
          rw [show ((setCmap (Childrenlist.insert_before s p old new) p
            (Node.insertKey ((Childrenlist.insert_before s p old new) p).cmap new)) q).head =
            ((Childrenlist.insert_before s p old new) q).head from by simp]
          exact ib_head_of_ne hnr hq
        have htails : (s_c q).tail = (s q).tail := by
          rw [(hht q hq).2]
          rw [show ((setCmap (Childrenlist.insert_before s p old new) p
            (Node.insertKey ((Childrenlist.insert_before s p old new) p).cmap new)) q).tail =
            ((Childrenlist.insert_before s p old new) q).tail from by simp]
          exact ib_tail hnr
        rw [wfList_congr hheads htails hnexts hprevs]
        exact hwf q
    · intro q
      by_cases hq : q = p
      · subst hq
        rw [Function.update_same]
        exact (nodup_insBef (hnd q) (hnew q)).erase old
      · rw [Function.update_noteq hq]
        exact hnd q
    · intro q x
      by_cases hq : q = p
      · subst hq
        rw [Function.update_same]
        rw [show ((setCmap s_c q ((s_c q).cmap.erase old)) q).cmap =
          (s_c q).cmap.erase old from by simp]
        rw [hcmapc q, hcmap_b q, if_pos rfl]
        rw [List.Nodup.mem_erase_iff (nodup_insertKey (hcnd q)),
          List.Nodup.mem_erase_iff (nodup_insBef (hnd q) (hnew q))]
        rw [mem_insertKey, mem_insBef]
        simp [hcm q x]
      · rw [Function.update_noteq hq, setCmap_cmap_of_ne hq, hcmapc, hcmap_b, if_neg hq]
        exact hcm q x
    · intro q
      by_cases hq : q = p
      · rw [show ((setCmap s_c p ((s_c p).cmap.erase old)) q).cmap =
          (s_c p).cmap.erase old from by rw [hq]; simp]
        rw [hcmapc, hcmap_b, if_pos rfl]
        exact (nodup_insertKey (hcnd p)).erase old
      · rw [setCmap_cmap_of_ne hq, hcmapc, hcmap_b, if_neg hq]
        exact hcnd q
    · intro q q2 x hxq hxq2
      have hsub : ∀ y, y ∈ (insBef (ch p) old new).erase old → y ∈ ch p ∨ y = new := by
        intro y hy
        have hy2 := ((nodup_insBef (hnd p) (hnew p)).mem_erase_iff.1 hy).2
        exact mem_insBef.1 hy2
      by_cases hq : q = p <;> by_cases hq2 : q2 = p
      · rw [hq, hq2]
      · subst hq
        rw [Function.update_same] at hxq
        rw [Function.update_noteq hq2] at hxq2
        rcases hsub x hxq with hin | rfl
        · exact hdisj q q2 x hin hxq2
        · exact absurd hxq2 (hnew q2)
      · subst hq2
        rw [Function.update_same] at hxq2
        rw [Function.update_noteq hq] at hxq
        rcases hsub x hxq2 with hin | rfl
        · exact hdisj q q2 x hxq hin
        · exact absurd hxq (hnew q)
      · rw [Function.update_noteq hq] at hxq
        rw [Function.update_noteq hq2] at hxq2
        exact hdisj q q2 x hxq hxq2

end StepLemmas

section ReachLemmas

variable {s s2 : State} {ch : Ch} {p q r new old c x : String} {l m l₁ l₂ : List String}

/-- Every reachable heap satisfies the global well-formedness invariant. -/
theorem WF_of_Reach (h : Reach s ch) : WF s ch := by
  induction h with
  | base => exact WF_init
  | insertAppend p new hR hnew hok ih => exact step_insertAppend ih hnew hok
  | insertRef p new r hR hnew hok ih => exact step_insertRef ih hnew hok
  | replaceChild p old new hR hnew hok ih => exact step_replace ih hnew hok
  | removeChild p child hR hok ih => exact step_remove ih hok

theorem iterates_setCmap {ks : List String} :
    iterates (setCmap s x ks) p l = iterates s p l := by
  unfold iterates
  have hc : ∀ y ∈ l, ((setCmap s x ks) y).next = (s y).next := fun y _ => by simp
  rw [nextSeg_congr hc, show ((setCmap s x ks) p).head = (s p).head from by simp]

theorem iterates_det (h1 : iterates s p l = true) (h2 : iterates s p m = true) : l = m := by
  unfold iterates at h1 h2
  exact nextSeg_det h1 h2

/-- The spec's doubly-linked consistency conditions follow from the
well-formed-list predicate. -/
theorem dllInv_of_wfList (hwf : wfList s p l = true) (hnd : l.Nodup) : dllInv s p l := by
  obtain ⟨hiter, hprev, htail⟩ := wfList_iff.1 hwf
  unfold iterates at hiter
  have hhead := wfList_head hwf
  refine ⟨?_, ?_, ?_, ?_, ?_⟩
  · intro c hc hnothead
    obtain ⟨l₁, l₂, heq⟩ := List.append_of_mem hc
    subst heq
    cases l₁ with
    | nil =>
      exact absurd (by simpa using hhead) hnothead
    | cons z l₁t =>
      rcases List.eq_nil_or_concat (z :: l₁t) with habs | ⟨l₁d, t₁, hcat⟩
      · exact absurd habs (by simp)
      · rw [List.concat_eq_append] at hcat
        rw [hcat] at hprev hiter
        rw [prevChain_append, Bool.and_eq_true] at hprev
        obtain ⟨hprev1, hprev2⟩ := hprev
        simp only [prevChain, Bool.and_eq_true, beq_iff_eq] at hprev2
        have hpc : (s c).prev = some t₁ := by
          rw [hprev2.1]
          unfold lastOpt
          rw [List.getLast?_concat]
        obtain ⟨m1, hseg1, hseg2⟩ := nextSeg_append_iff.1 hiter
        obtain ⟨m2, hseg1a, hseg1b⟩ := nextSeg_append_iff.1 hseg1
        simp only [nextSeg, Bool.and_eq_true, beq_iff_eq] at hseg1b hseg2
        obtain ⟨rfl, hnt₁⟩ := hseg1b
        obtain ⟨rfl, -⟩ := hseg2
        exact ⟨t₁, hpc, hnt₁⟩
  · intro c hc hnottail
    obtain ⟨l₁, l₂, heq⟩ := List.append_of_mem hc
    subst heq
    cases l₂ with
    | nil =>
      rw [htail, List.getLast?_append_cons] at hnottail
      exact absurd rfl hnottail
    | cons h₂ l₂t =>
      rw [prevChain_append, Bool.and_eq_true] at hprev
      obtain ⟨hprev1, hprev2⟩ := hprev
      simp only [prevChain, Bool.and_eq_true, beq_iff_eq] at hprev2
      obtain ⟨m1, hseg1, hseg2⟩ := nextSeg_append_iff.1 hiter
      simp only [nextSeg, Bool.and_eq_true, beq_iff_eq] at hseg2
      obtain ⟨rfl, hseg2⟩ := hseg2
      exact ⟨h₂, hseg2.1, hprev2.2.1⟩
  · intro c hc
    cases l with
    | nil =>
      rw [hhead] at hc
      simp at hc
    | cons z l' =>
      have hz : z = c := by
        rw [hhead] at hc
        injection hc
      subst hz
      simp only [prevChain, Bool.and_eq_true, beq_iff_eq] at hprev
      exact hprev.1
  · intro c hc
    rw [htail] at hc
    rcases List.eq_nil_or_concat l with rfl | ⟨ld, t, hcat⟩
    · exact absurd hc (by simp)
    · rw [List.concat_eq_append] at hcat
      subst hcat
      rw [List.getLast?_concat] at hc
      have ht : t = c := by injection hc
      subst ht
      obtain ⟨m1, hseg1, hseg2⟩ := nextSeg_append_iff.1 hiter
      simp only [nextSeg, Bool.and_eq_true, beq_iff_eq] at hseg2
      exact hseg2.2
  · constructor
    · rintro ⟨hh, ht⟩
      rw [hhead] at hh
      exact List.head?_eq_none_iff.1 hh
    · rintro rfl
      rw [hhead, htail]
      simp

/-- Generic field preservation for `_childrenlist.delete`, with no
well-formedness assumption: the only `next` written is that of the deleted
node's `prev` target and the only `prev` written is that of its `next`
target; `_cmap` and `parent` are never touched. -/
theorem delete_fields (hdel : Childrenlist.delete s p c = some s2) :
    (∀ y, (s2 y).cmap = (s y).cmap) ∧
    (∀ y, (s2 y).parent = (s y).parent) ∧
    (∀ x, (s c).prev ≠ some x → (s2 x).next = (s x).next) ∧
    (∀ x, (s c).next ≠ some x → (s2 x).prev = (s x).prev) := by
  unfold Childrenlist.delete at hdel
  by_cases hh : (s p).head = some c
  · rw [if_pos hh] at hdel
    by_cases ht : ((setHead s p (s c).next) p).tail = some c
    · rw [show (match (some (setHead s p (s c).next) : Option State) with
        | none => none
        | some s1 =>
          if (s1 p).tail = some c then some (setTail s1 p (s1 c).prev)
          else match (s1 c).next with
            | none => none
            | some q => some (setPrev s1 q (s1 c).prev)) =
        (if ((setHead s p (s c).next) p).tail = some c then
          some (setTail (setHead s p (s c).next) p ((setHead s p (s c).next) c).prev)
        else match ((setHead s p (s c).next) c).next with
          | none => none
          | some q => some (setPrev (setHead s p (s c).next) q
              ((setHead s p (s c).next) c).prev)) from rfl, if_pos ht] at hdel
      injection hdel with hdel
      subst hdel
      exact ⟨fun y => by simp, fun y => by simp, fun x hx => by simp, fun x hx => by simp⟩
    · rw [show (match (some (setHead s p (s c).next) : Option State) with
        | none => none
        | some s1 =>
          if (s1 p).tail = some c then some (setTail s1 p (s1 c).prev)
          else match (s1 c).next with
            | none => none
            | some q => some (setPrev s1 q (s1 c).prev)) =
        (if ((setHead s p (s c).next) p).tail = some c then
          some (setTail (setHead s p (s c).next) p ((setHead s p (s c).next) c).prev)
        else match ((setHead s p (s c).next) c).next with
          | none => none
          | some q => some (setPrev (setHead s p (s c).next) q
              ((setHead s p (s c).next) c).prev)) from rfl, if_neg ht] at hdel
      rw [show ((setHead s p (s c).next) c).next = (s c).next from by simp] at hdel
      cases hcn : (s c).next with
      | none =>
        rw [hcn] at hdel
        exact Option.noConfusion hdel
      | some z =>
        rw [hcn] at hdel
        injection hdel with hdel
        subst hdel
        refine ⟨fun y => by simp, fun y => by simp, fun x hx => by simp, fun x hx => ?_⟩
        have hxz : x ≠ z := fun e => hx (by rw [e])
        simp [setPrev_prev, hxz]
  · rw [if_neg hh] at hdel
    cases hcp : (s c).prev with
    | none =>
      rw [hcp] at hdel
      exact Option.noConfusion hdel
    | some b =>
      rw [hcp] at hdel
      have hbn : ((setNext s b (s c).next) c).next = (s c).next := by
        by_cases hbc : c = b
        · subst hbc
          simp
        · simp [setNext_next, hbc]
      by_cases ht : ((setNext s b (s c).next) p).tail = some c
      · rw [show (match (some (setNext s b (s c).next) : Option State) with
          | none => none
          | some s1 =>
            if (s1 p).tail = some c then some (setTail s1 p (s1 c).prev)
            else match (s1 c).next with
              | none => none
              | some q => some (setPrev s1 q (s1 c).prev)) =
          (if ((setNext s b (s c).next) p).tail = some c then
            some (setTail (setNext s b (s c).next) p ((setNext s b (s c).next) c).prev)
          else match ((setNext s b (s c).next) c).next with
            | none => none
            | some q => some (setPrev (setNext s b (s c).next) q
                ((setNext s b (s c).next) c).prev)) from rfl, if_pos ht] at hdel
        injection hdel with hdel
        subst hdel
        refine ⟨fun y => by simp, fun y => by simp, fun x hx => ?_, fun x hx => by simp⟩
        have hxb : x ≠ b := fun e => hx (by rw [e])
        simp [setNext_next, hxb]
      · rw [show (match (some (setNext s b (s c).next) : Option State) with
          | none => none
          | some s1 =>
            if (s1 p).tail = some c then some (setTail s1 p (s1 c).prev)
            else match (s1 c).next with
              | none => none
              | some q => some (setPrev s1 q (s1 c).prev)) =
          (if ((setNext s b (s c).next) p).tail = some c then
            some (setTail (setNext s b (s c).next) p ((setNext s b (s c).next) c).prev)
          else match ((setNext s b (s c).next) c).next with
            | none => none
            | some q => some (setPrev (setNext s b (s c).next) q
                ((setNext s b (s c).next) c).prev)) from rfl, if_neg ht, hbn] at hdel
        cases hcn : (s c).next with
        | none =>
          rw [hcn] at hdel
          exact Option.noConfusion hdel
        | some z =>
          rw [hcn] at hdel
          injection hdel with hdel
          subst hdel
          refine ⟨fun y => by simp, fun y => by simp, fun x hx => ?_, fun x hx => ?_⟩
          · have hxb : x ≠ b := fun e => hx (by rw [e])
            simp [setNext_next, hxb]
          · have hxz : x ≠ z := fun e => hx (by rw [e])
            simp [setPrev_prev, hxz]

end ReachLemmas

section ExampleReach

theorem reach_exA : Reach exA chA := by
  have h := Reach.insertAppend "p" "a" Reach.base
    (fun q => by simp [ch0])
    (show Node.insert_before initState "p" "a" none = Node.Result.ok exA "a" from rfl)
  exact h

theorem reach_exAB : Reach exAB chAB := by
  have hnew : ∀ q, "b" ∉ chA q := by
    intro q
    rw [chA, Function.update_apply]
    split <;> simp [ch0]
  have h := Reach.insertAppend "p" "b" reach_exA hnew
    (show Node.insert_before exA "p" "b" none = Node.Result.ok exAB "b" from rfl)
  exact h

end ExampleReach

section Claims

/-- C1: for every reachable node `p` and every sequence of `insert_before`,
`replace_child` and `remove_child` operations (any reachable heap `s`), the
key set of `p`'s child index `_cmap` equals the set of names yielded by
iterating `p.children`. -/
theorem C1_index_matches_children {s : State} {ch : Ch} {p : String} {l : List String}
    (hreach : Reach s ch) (hiter : iterates s p l = true) :
    ∀ x, x ∈ (s p).cmap ↔ x ∈ l := by
  obtain ⟨hwf, -, hcm, -, -⟩ := WF_of_Reach hreach
  have hl : l = ch p := iterates_det hiter (wfList_iff.1 (hwf p)).1
  subst hl
  exact hcm p

theorem C1_witness :
    iterates exAB "p" ["a", "b"] = true ∧
    ("a" ∈ (exAB "p").cmap ↔ "a" ∈ ["a", "b"]) := by
  have h1 : iterates exAB "p" ["a", "b"] = true := by decide
  exact ⟨h1, C1_index_matches_children reach_exAB h1 "a"⟩


/-- C2: `insert_before` with an explicit reference, `replace_child` and
`remove_child` raise `NotAChild` exactly when the reference/target argument
(`ref`, `old`, `child` respectively) is not currently a child of the
receiver (its name is not in the child index, i.e. `has_as_child` is
false), and the heap at the moment of the raise is the unmodified input
heap — no partial mutation. -/
theorem C2_notAChild_iff (s : State) (p new r old c : String) :
    ((∃ t, Node.insert_before s p new (some r) = Node.Result.notAChild t) ↔
      Node.has_as_child s p r = false) ∧
    (∀ t, Node.insert_before s p new (some r) = Node.Result.notAChild t → t = s) ∧
    ((∃ t, Node.replace_child s p old new = Node.Result.notAChild t) ↔
      Node.has_as_child s p old = false) ∧
    (∀ t, Node.replace_child s p old new = Node.Result.notAChild t → t = s) ∧
    ((∃ t, Node.remove_child s p c = Node.Result.notAChild t) ↔
      Node.has_as_child s p c = false) ∧
    (∀ t, Node.remove_child s p c = Node.Result.notAChild t → t = s) := by
  refine ⟨?_, ?_, ?_, ?_, ?_, ?_⟩
  · cases hhc : Node.has_as_child s p r with
    | false => simp [Node.insert_before, hhc]
    | true =>
      simp only [Node.insert_before, hhc, if_pos rfl]
      constructor
      · rintro ⟨t, ht⟩
        exact Node.Result.noConfusion ht
      · intro h
        exact absurd h (by simp)
  · intro t ht
    cases hhc : Node.has_as_child s p r with
    | false =>
      simp only [Node.insert_before, hhc] at ht
      rw [if_neg (by simp)] at ht
      injection ht with h
      exact h.symm
    | true =>
      simp only [Node.insert_before, hhc, if_pos rfl] at ht
      exact Node.Result.noConfusion ht
  · cases hhc : Node.has_as_child s p old with
    | false => simp [Node.replace_child, hhc]
    | true =>
      constructor
      · rintro ⟨t, ht⟩
        rw [show Node.replace_child s p old new = (if Node.has_as_child s p old = true then
          (match Childrenlist.delete (setCmap (Childrenlist.insert_before s p old new) p
              (Node.insertKey ((Childrenlist.insert_before s p old new) p).cmap new)) p old with
            | none => Node.Result.attrError
            | some s3 => Node.Result.ok (setCmap s3 p ((s3 p).cmap.erase old)) old)
          else Node.Result.notAChild s) from rfl, hhc, if_pos rfl] at ht
        cases hdel : Childrenlist.delete (setCmap (Childrenlist.insert_before s p old new) p
            (Node.insertKey ((Childrenlist.insert_before s p old new) p).cmap new)) p old with
        | none =>
          rw [hdel] at ht
          exact Node.Result.noConfusion ht
        | some s3 =>
          rw [hdel] at ht
          exact Node.Result.noConfusion ht
      · intro h
        exact absurd h (by simp)
  · intro t ht
    cases hhc : Node.has_as_child s p old with
    | false =>
      rw [show Node.replace_child s p old new = (if Node.has_as_child s p old = true then
        (match Childrenlist.delete (setCmap (Childrenlist.insert_before s p old new) p
            (Node.insertKey ((Childrenlist.insert_before s p old new) p).cmap new)) p old with
          | none => Node.Result.attrError
          | some s3 => Node.Result.ok (setCmap s3 p ((s3 p).cmap.erase old)) old)
        else Node.Result.notAChild s) from rfl, hhc, if_neg (by simp)] at ht
      injection ht with h
      exact h.symm
    | true =>
      rw [show Node.replace_child s p old new = (if Node.has_as_child s p old = true then
        (match Childrenlist.delete (setCmap (Childrenlist.insert_before s p old new) p
            (Node.insertKey ((Childrenlist.insert_before s p old new) p).cmap new)) p old with
          | none => Node.Result.attrError
          | some s3 => Node.Result.ok (setCmap s3 p ((s3 p).cmap.erase old)) old)
        else Node.Result.notAChild s) from rfl, hhc, if_pos rfl] at ht
      cases hdel : Childrenlist.delete (setCmap (Childrenlist.insert_before s p old new) p
          (Node.insertKey ((Childrenlist.insert_before s p old new) p).cmap new)) p old with
      | none =>
        rw [hdel] at ht
        exact Node.Result.noConfusion ht
      | some s3 =>
        rw [hdel] at ht
        exact Node.Result.noConfusion ht
  · cases hhc : Node.has_as_child s p c with
    | false => simp [Node.remove_child, hhc]
    | true =>
      constructor
      · rintro ⟨t, ht⟩
        rw [show Node.remove_child s p c = (if Node.has_as_child s p c = true then
          (match Childrenlist.delete s p c with
            | none => Node.Result.attrError
            | some s1 => Node.Result.ok (setCmap s1 p ((s1 p).cmap.erase c)) c)
          else Node.Result.notAChild s) from rfl, hhc, if_pos rfl] at ht
        cases hdel : Childrenlist.delete s p c with
        | none =>
          rw [hdel] at ht
          exact Node.Result.noConfusion ht
        | some s1 =>
          rw [hdel] at ht
          exact Node.Result.noConfusion ht
      · intro h
        exact absurd h (by simp)
  · intro t ht
    cases hhc : Node.has_as_child s p c with
    | false =>
      rw [show Node.remove_child s p c = (if Node.has_as_child s p c = true then
        (match Childrenlist.delete s p c with
          | none => Node.Result.attrError
          | some s1 => Node.Result.ok (setCmap s1 p ((s1 p).cmap.erase c)) c)
        else Node.Result.notAChild s) from rfl, hhc, if_neg (by simp)] at ht
      injection ht with h
      exact h.symm
    | true =>
      rw [show Node.remove_child s p c = (if Node.has_as_child s p c = true then
        (match Childrenlist.delete s p c with
          | none => Node.Result.attrError
          | some s1 => Node.Result.ok (setCmap s1 p ((s1 p).cmap.erase c)) c)
        else Node.Result.notAChild s) from rfl, hhc, if_pos rfl] at ht
      cases hdel : Childrenlist.delete s p c with
      | none =>
        rw [hdel] at ht
        exact Node.Result.noConfusion ht
      | some s1 =>
        rw [hdel] at ht
        exact Node.Result.noConfusion ht

theorem C2_witness :
    (∃ t, Node.insert_before exA "p" "n" (some "b") = Node.Result.notAChild t) ∧
    (∃ t, Node.replace_child exA "p" "b" "n" = Node.Result.notAChild t) ∧
    (∃ t, Node.remove_child exA "p" "b" = Node.Result.notAChild t) := by
  obtain ⟨h1, h2, h3, h4, h5, h6⟩ := C2_notAChild_iff exA "p" "n" "b" "b" "b"
  exact ⟨h1.2 (by decide), h3.2 (by decide), h5.2 (by decide)⟩


/-- C3 counterexample: the claim says the 8th node constructed with
node_type ELEMENT is named `element_7`, but `make_name` lowercases the
class name `Node`, so that node is named `node_7`, which differs from the
spec's `element_7`. -/
theorem C3_counterexample :
    (Node.init NodeType.element 7).name = "node_7" ∧
    Node.specName NodeType.element 7 = "element_7" ∧
    (Node.init NodeType.element 7).name ≠ Node.specName NodeType.element 7 :=
  ⟨rfl, rfl, by decide⟩

/-- C3 amended: the name assigned at construction is the lowercase class
name `node` (not the node type's tag) combined with the next value of the
global counter: the node constructed when the counter yields `count` is
named `node_<count>` whatever its `node_type`; in particular the 8th node
constructed is named `node_7`. -/
theorem C3_name_from_class_and_counter (t u : NodeType) (count : Nat) :
    (Node.init t count).name = "node" ++ "_" ++ Nat.repr count ∧
    (Node.init t count).name = (Node.init u count).name ∧
    (Node.init t 7).name = "node_7" :=
  ⟨rfl, rfl, rfl⟩

/-- C4: on a well-formed child list, a successful `insert_before(new, ref)`
places `new` immediately before `ref` in the iteration order, and
`insert_before` with absent `ref` appends `new` at the end; in both cases
the relative order of all previously inserted children is preserved and
`new` is returned. -/
theorem C4_insert_order {s : State} {p r new : String} {l₁ l₂ : List String}
    (hwf : wfList s p (l₁ ++ r :: l₂) = true) (hnd : (l₁ ++ r :: l₂).Nodup)
    (hnew : new ∉ l₁ ++ r :: l₂) (hcmap : r ∈ (s p).cmap) :
    (∃ s2, Node.insert_before s p new (some r) = Node.Result.ok s2 new ∧
      iterates s2 p (l₁ ++ new :: r :: l₂) = true) ∧
    (∃ s3, Node.insert_before s p new none = Node.Result.ok s3 new ∧
      iterates s3 p ((l₁ ++ r :: l₂) ++ [new]) = true) := by
  have htrue : Node.has_as_child s p r = true := by
    simp [Node.has_as_child, hcmap]
  constructor
  · refine ⟨setCmap (Childrenlist.insert_before s p r new) p
      (Node.insertKey ((Childrenlist.insert_before s p r new) p).cmap new), ?_, ?_⟩
    · rw [show Node.insert_before s p new (some r) =
        (if Node.has_as_child s p r = true then
          Node.Result.ok (setCmap (Childrenlist.insert_before s p r new) p
            (Node.insertKey ((Childrenlist.insert_before s p r new) p).cmap new)) new
        else Node.Result.notAChild s) from rfl, htrue, if_pos rfl]
    · rw [iterates_setCmap]
      exact (wfList_iff.1 (ib_wf hwf hnd hnew)).1
  · refine ⟨setCmap (Childrenlist.append s p new) p
      (Node.insertKey ((Childrenlist.append s p new) p).cmap new), ?_, ?_⟩
    · rfl
    · rw [iterates_setCmap]
      exact (wfList_iff.1 (append_wf hwf hnd hnew)).1

theorem C4_witness :
    (∃ s2, Node.insert_before exA "p" "b" (some "a") = Node.Result.ok s2 "b" ∧
      iterates s2 "p" (([] : List String) ++ "b" :: "a" :: []) = true) ∧
    (∃ s3, Node.insert_before exA "p" "b" none = Node.Result.ok s3 "b" ∧
      iterates s3 "p" ((([] : List String) ++ "a" :: []) ++ ["b"]) = true) :=
  @C4_insert_order exA "p" "a" "b" [] [] (by decide) (by decide) (by decide) (by decide)

/-- C5 counterexample: with `p`'s children `[a, b]`, `remove_child(a)`
returns `a` but leaves `a.next` pointing at `b` (not absent), and
`replace_child(a, c)` returns `a` but leaves `a.prev` pointing at the
replacement `c` — the detached node's sibling linkage is not cleared. -/
theorem C5_counterexample :
    Node.remove_child exAB "p" "a" = Node.Result.ok exRem "a" ∧
    (exRem "a").next = some "b" ∧
    Node.replace_child exAB "p" "a" "c" = Node.Result.ok exRep "a" ∧
    (exRep "a").prev = some "c" ∧ (exRep "a").next = some "b" :=
  ⟨rfl, by decide, rfl, by decide, by decide⟩

/-- C5 amended: after `remove_child(child)` or `replace_child(old, new)`
detaches a node, the detached node's name is removed from the parent's
child index and the node itself is returned to the caller, but its sibling
links are left in place rather than cleared: after `remove_child` the
detached node's `prev` and `next` keep exactly their former values, and
after `replace_child` the old node's `next` keeps its former value while
its `prev` points at the replacement `new`. -/
theorem C5_detach_keeps_links {s s2 s3 : State} {p c old new ret ret2 : String}
    (hnd : (s p).cmap.Nodup)
    (hp : (s c).prev ≠ some c) (hn : (s c).next ≠ some c)
    (hok : Node.remove_child s p c = Node.Result.ok s2 ret)
    (hno : new ≠ old) (hop : (s old).prev ≠ some old) (hon : (s old).next ≠ some old)
    (hok2 : Node.replace_child s p old new = Node.Result.ok s3 ret2) :
    (ret = c ∧ c ∉ (s2 p).cmap ∧ (s2 c).prev = (s c).prev ∧ (s2 c).next = (s c).next) ∧
    (ret2 = old ∧ old ∉ (s3 p).cmap ∧
      (s3 old).prev = some new ∧ (s3 old).next = (s old).next) := by
  constructor
  · cases hhc : Node.has_as_child s p c with
    | false =>
      rw [show Node.remove_child s p c = (if Node.has_as_child s p c = true then
        (match Childrenlist.delete s p c with
          | none => Node.Result.attrError
          | some s1 => Node.Result.ok (setCmap s1 p ((s1 p).cmap.erase c)) c)
        else Node.Result.notAChild s) from rfl, hhc, if_neg (by simp)] at hok
      exact Node.Result.noConfusion hok
    | true =>
      rw [show Node.remove_child s p c = (if Node.has_as_child s p c = true then
        (match Childrenlist.delete s p c with
          | none => Node.Result.attrError
          | some s1 => Node.Result.ok (setCmap s1 p ((s1 p).cmap.erase c)) c)
        else Node.Result.notAChild s) from rfl, hhc, if_pos rfl] at hok
      cases hdel : Childrenlist.delete s p c with
      | none =>
        rw [hdel] at hok
        exact Node.Result.noConfusion hok
      | some sd =>
        rw [hdel] at hok
        injection hok with h1 h2
        subst h1
        obtain ⟨hcmapd, hpard, hnextd, hprevd⟩ := delete_fields hdel
        refine ⟨h2.symm, ?_, ?_, ?_⟩
        · rw [show ((setCmap sd p ((sd p).cmap.erase c)) p).cmap =
            (sd p).cmap.erase c from by simp]
          rw [hcmapd p]
          intro hmem
          exact ((hnd.mem_erase_iff).1 hmem).1 rfl
        · rw [show ((setCmap sd p ((sd p).cmap.erase c)) c).prev = (sd c).prev from by simp]
          exact hprevd c hn
        · rw [show ((setCmap sd p ((sd p).cmap.erase c)) c).next = (sd c).next from by simp]
          exact hnextd c hp
  · cases hhc : Node.has_as_child s p old with
    | false =>
      rw [show Node.replace_child s p old new = (if Node.has_as_child s p old = true then
        (match Childrenlist.delete (setCmap (Childrenlist.insert_before s p old new) p
            (Node.insertKey ((Childrenlist.insert_before s p old new) p).cmap new)) p old with
          | none => Node.Result.attrError
          | some sd => Node.Result.ok (setCmap sd p ((sd p).cmap.erase old)) old)
        else Node.Result.notAChild s) from rfl, hhc, if_neg (by simp)] at hok2
      exact Node.Result.noConfusion hok2
    | true =>
      rw [show Node.replace_child s p old new = (if Node.has_as_child s p old = true then
        (match Childrenlist.delete (setCmap (Childrenlist.insert_before s p old new) p
            (Node.insertKey ((Childrenlist.insert_before s p old new) p).cmap new)) p old with
          | none => Node.Result.attrError
          | some sd => Node.Result.ok (setCmap sd p ((sd p).cmap.erase old)) old)
        else Node.Result.notAChild s) from rfl, hhc, if_pos rfl] at hok2
      cases hdel : Childrenlist.delete (setCmap (Childrenlist.insert_before s p old new) p
          (Node.insertKey ((Childrenlist.insert_before s p old new) p).cmap new)) p old with
      | none =>
        rw [hdel] at hok2
        exact Node.Result.noConfusion hok2
      | some sd =>
        rw [hdel] at hok2
        injection hok2 with h1 h2
        subst h1
        obtain ⟨hcmapd, hpard, hnextd, hprevd⟩ := delete_fields hdel
        have hb_prev_old : ((setCmap (Childrenlist.insert_before s p old new) p
            (Node.insertKey ((Childrenlist.insert_before s p old new) p).cmap new)) old).prev =
            some new := by
          rw [show ((setCmap (Childrenlist.insert_before s p old new) p
            (Node.insertKey ((Childrenlist.insert_before s p old new) p).cmap new)) old).prev =
            ((Childrenlist.insert_before s p old new) old).prev from by simp]
          exact ib_prev_r hno
        have hb_next_old : ((setCmap (Childrenlist.insert_before s p old new) p
            (Node.insertKey ((Childrenlist.insert_before s p old new) p).cmap new)) old).next =
            (s old).next := by
          rw [show ((setCmap (Childrenlist.insert_before s p old new) p
            (Node.insertKey ((Childrenlist.insert_before s p old new) p).cmap new)) old).next =
            ((Childrenlist.insert_before s p old new) old).next from by simp]
          exact ib_next_of_ne hno (Ne.symm hno) hop
        refine ⟨h2.symm, ?_, ?_, ?_⟩
        · rw [show ((setCmap sd p ((sd p).cmap.erase old)) p).cmap =
            (sd p).cmap.erase old from by simp]
          rw [hcmapd p]
          rw [show ((setCmap (Childrenlist.insert_before s p old new) p
            (Node.insertKey ((Childrenlist.insert_before s p old new) p).cmap new)) p).cmap =
            Node.insertKey ((Childrenlist.insert_before s p old new) p).cmap new from by simp]
          rw [ib_cmap hno]
          intro hmem
          exact (((nodup_insertKey hnd).mem_erase_iff).1 hmem).1 rfl
        · rw [show ((setCmap sd p ((sd p).cmap.erase old)) old).prev = (sd old).prev from by simp]
          rw [hprevd old (by rw [hb_next_old]; exact hon), hb_prev_old]
        · rw [show ((setCmap sd p ((sd p).cmap.erase old)) old).next = (sd old).next from by simp]
          have hne : ((setCmap (Childrenlist.insert_before s p old new) p
              (Node.insertKey ((Childrenlist.insert_before s p old new) p).cmap new)) old).prev ≠
              some old := by
            rw [hb_prev_old]
            intro hcontra
            exact hno (by injection hcontra)
          rw [hnextd old hne, hb_next_old]

theorem C5_witness :
    (("a" : String) = "a" ∧ "a" ∉ (exRem "p").cmap ∧
      (exRem "a").prev = (exAB "a").prev ∧ (exRem "a").next = (exAB "a").next) ∧
    (("a" : String) = "a" ∧ "a" ∉ (exRep "p").cmap ∧
      (exRep "a").prev = some "c" ∧ (exRep "a").next = (exAB "a").next) :=
  @C5_detach_keeps_links exAB exRem exRep "p" "a" "a" "c" "a" "a"
    (by decide) (by decide) (by decide) rfl (by decide) (by decide) (by decide) rfl


/-- C6: for every child list reachable through the public API, the
doubly-linked invariant holds after every operation: every member that is
not head is its predecessor's successor, every member that is not tail is
its successor's predecessor, head has no `prev`, tail has no `next`, and
head and tail are both absent exactly when the list is empty. -/
theorem C6_doubly_linked_invariant {s : State} {ch : Ch} {p : String} {l : List String}
    (hreach : Reach s ch) (hiter : iterates s p l = true) : dllInv s p l := by
  obtain ⟨hwf, hnd, -, -, -⟩ := WF_of_Reach hreach
  have hl : l = ch p := iterates_det hiter (wfList_iff.1 (hwf p)).1
  subst hl
  exact dllInv_of_wfList (hwf p) (hnd p)

theorem C6_witness : dllInv exAB "p" ["a", "b"] :=
  C6_doubly_linked_invariant reach_exAB (by decide)

/-- C7: for a parent `p` whose well-formed child list is `[a, b]` in order
and a fresh node `c`, `replace_child(a, c)` returns the very node `a`,
iteration afterwards yields `[c, b]`, `has_as_child(a)` is false and
`has_as_child(c)` is true. -/
theorem C7_replace_scenario {s : State} {p a b c : String}
    (hwf : wfList s p [a, b] = true) (hcmap : (s p).cmap = [a, b])
    (hab : a ≠ b) (hca : c ≠ a) (hcb : c ≠ b) :
    ∃ s2, Node.replace_child s p a c = Node.Result.ok s2 a ∧
      iterates s2 p [c, b] = true ∧
      Node.has_as_child s2 p a = false ∧
      Node.has_as_child s2 p c = true := by
  have htrue : Node.has_as_child s p a = true := by
    simp [Node.has_as_child, hcmap]
  have hwf1 : wfList s p ([] ++ a :: [b]) = true := hwf
  have hnd1 : (([] : List String) ++ a :: [b]).Nodup := by simp [hab]
  have hnew1 : c ∉ ([] : List String) ++ a :: [b] := by simp [hca, hcb]
  have hwf_a := ib_wf hwf1 hnd1 hnew1
  have hwf_b : wfList (setCmap (Childrenlist.insert_before s p a c) p
      (Node.insertKey ((Childrenlist.insert_before s p a c) p).cmap c)) p
      ([c] ++ a :: [b]) = true := by
    rw [wfList_setCmap]
    exact hwf_a
  have hnd_b : ([c] ++ a :: [b]).Nodup := by simp [hab, hca, hcb]
  obtain ⟨sd, hdel, hwfd, hcmapd, hpard, hht, hout, hpc2, hnc2⟩ := delete_spec hwf_b hnd_b
  refine ⟨setCmap sd p ((sd p).cmap.erase a), ?_, ?_, ?_, ?_⟩
  · rw [show Node.replace_child s p a c = (if Node.has_as_child s p a = true then
      (match Childrenlist.delete (setCmap (Childrenlist.insert_before s p a c) p
          (Node.insertKey ((Childrenlist.insert_before s p a c) p).cmap c)) p a with
        | none => Node.Result.attrError
        | some sd => Node.Result.ok (setCmap sd p ((sd p).cmap.erase a)) a)
      else Node.Result.notAChild s) from rfl, htrue, if_pos rfl, hdel]
  · rw [iterates_setCmap]
    exact (wfList_iff.1 hwfd).1
  · have hcm2 : ((setCmap sd p ((sd p).cmap.erase a)) p).cmap = ([a, b] ++ [c]).erase a := by
      rw [show ((setCmap sd p ((sd p).cmap.erase a)) p).cmap = (sd p).cmap.erase a from by simp]
      rw [hcmapd p]
      rw [show ((setCmap (Childrenlist.insert_before s p a c) p
        (Node.insertKey ((Childrenlist.insert_before s p a c) p).cmap c)) p).cmap =
        Node.insertKey ((Childrenlist.insert_before s p a c) p).cmap c from by simp]
      rw [ib_cmap hca, hcmap]
      rw [show Node.insertKey [a, b] c = [a, b] ++ [c] from by
        unfold Node.insertKey
        rw [if_neg (by simp [hca, hcb])]]
    rw [Node.has_as_child, hcm2]
    rw [show ([a, b] ++ [c]).erase a = [b, c] from by
      rw [show ([a, b] ++ [c]) = a :: (b :: [c]) from rfl, List.erase_cons_head]]
    simp [hab, Ne.symm hca]
  · have hcm2 : ((setCmap sd p ((sd p).cmap.erase a)) p).cmap = ([a, b] ++ [c]).erase a := by
      rw [show ((setCmap sd p ((sd p).cmap.erase a)) p).cmap = (sd p).cmap.erase a from by simp]
      rw [hcmapd p]
      rw [show ((setCmap (Childrenlist.insert_before s p a c) p
        (Node.insertKey ((Childrenlist.insert_before s p a c) p).cmap c)) p).cmap =
        Node.insertKey ((Childrenlist.insert_before s p a c) p).cmap c from by simp]
      rw [ib_cmap hca, hcmap]
      rw [show Node.insertKey [a, b] c = [a, b] ++ [c] from by
        unfold Node.insertKey
        rw [if_neg (by simp [hca, hcb])]]
    rw [Node.has_as_child, hcm2]
    rw [show ([a, b] ++ [c]).erase a = [b, c] from by
      rw [show ([a, b] ++ [c]) = a :: (b :: [c]) from rfl, List.erase_cons_head]]
    simp

theorem C7_witness :
    ∃ s2, Node.replace_child exAB "p" "a" "b2" = Node.Result.ok s2 "a" ∧
      iterates s2 "p" ["b2", "b"] = true ∧
      Node.has_as_child s2 "p" "a" = false ∧
      Node.has_as_child s2 "p" "b2" = true :=
  @C7_replace_scenario exAB "p" "a" "b" "b2" (by decide) (by decide)
    (by decide) (by decide) (by decide)

/-- C8 counterexample: the public API itself does not prevent a node from
being appended under two different parents — after `p.insert_before(a)`
and `q.insert_before(a)` both calls succeed and `a` is yielded by the
iteration of both `p`'s and `q`'s child lists, so the claim fails for
arbitrary call sequences. -/
theorem C8_counterexample :
    Node.insert_before initState "p" "a" none = Node.Result.ok exA "a" ∧
    Node.insert_before exA "q" "a" none = Node.Result.ok exPQ "a" ∧
    ("p" : String) ≠ "q" ∧
    iterates exPQ "p" ["a"] = true ∧ iterates exPQ "q" ["a"] = true :=
  ⟨rfl, rfl, by decide, by decide, by decide⟩

/-- C8 amended: under the spec's state-machine discipline — every node
passed as the `new` argument of an insertion or replacement is unattached
at call time — each node is a member of at most one parent's sibling list
in every reachable state: if `x` is yielded by iterating both `p`'s and
`q`'s children, then `p = q`. -/
theorem C8_at_most_one_parent {s : State} {ch : Ch} {p q x : String} {l m : List String}
    (hreach : Reach s ch) (hp : iterates s p l = true) (hq : iterates s q m = true)
    (hxl : x ∈ l) (hxm : x ∈ m) : p = q := by
  obtain ⟨hwf, -, -, -, hdisj⟩ := WF_of_Reach hreach
  have hl : l = ch p := iterates_det hp (wfList_iff.1 (hwf p)).1
  have hm : m = ch q := iterates_det hq (wfList_iff.1 (hwf q)).1
  subst hl
  subst hm
  exact hdisj p q x hxl hxm

theorem C8_witness : ("p" : String) = "p" :=
  C8_at_most_one_parent reach_exA (by decide) (by decide)
    (show "a" ∈ ["a"] by decide) (show "a" ∈ ["a"] by decide)

/-- C9: a successful `insert_before(new, ref)` never modifies
`new.parent`: after the call, `new.parent` has exactly the value it had
before. -/
theorem C9_insert_preserves_parent {s s2 : State} {p new ret : String} {ref : Option String}
    (hok : Node.insert_before s p new ref = Node.Result.ok s2 ret) :
    (s2 new).parent = (s new).parent := by
  cases ref with
  | none =>
    rw [show Node.insert_before s p new none =
      Node.Result.ok (setCmap (Childrenlist.append s p new) p
        (Node.insertKey ((Childrenlist.append s p new) p).cmap new)) new from rfl] at hok
    injection hok with h1 h2
    subst h1
    rw [show ((setCmap (Childrenlist.append s p new) p
      (Node.insertKey ((Childrenlist.append s p new) p).cmap new)) new).parent =
      ((Childrenlist.append s p new) new).parent from by simp]
    exact append_parent
  | some r =>
    cases hhc : Node.has_as_child s p r with
    | false =>
      rw [show Node.insert_before s p new (some r) = (if Node.has_as_child s p r = true then
        Node.Result.ok (setCmap (Childrenlist.insert_before s p r new) p
          (Node.insertKey ((Childrenlist.insert_before s p r new) p).cmap new)) new
        else Node.Result.notAChild s) from rfl, hhc, if_neg (by simp)] at hok
      exact Node.Result.noConfusion hok
    | true =>
      rw [show Node.insert_before s p new (some r) = (if Node.has_as_child s p r = true then
        Node.Result.ok (setCmap (Childrenlist.insert_before s p r new) p
          (Node.insertKey ((Childrenlist.insert_before s p r new) p).cmap new)) new
        else Node.Result.notAChild s) from rfl, hhc, if_pos rfl] at hok
      injection hok with h1 h2
      subst h1
      rw [show ((setCmap (Childrenlist.insert_before s p r new) p
        (Node.insertKey ((Childrenlist.insert_before s p r new) p).cmap new)) new).parent =
        ((Childrenlist.insert_before s p r new) new).parent from by simp]
      exact ib_parent_all

theorem C9_witness : (exBA "b").parent = (exA "b").parent :=
  C9_insert_preserves_parent
    (show Node.insert_before exA "p" "b" (some "a") = Node.Result.ok exBA "b" from rfl)

/-- C10: on a well-formed child list, `_childrenlist.delete` never
dereferences an absent reference — for any member of the list it returns a
result (`isSome`), because a non-head member has a present `prev` and a
non-tail member has a present `next`; and `_childrenlist.insert_before`
writes through `new.prev` only at the node that `ref.prev` actually names,
leaving every other node's `next` pointer untouched. -/
theorem C10_delete_total_on_members {s : State} {p r new c x : String} {l₁ l₂ : List String}
    (hwf : wfList s p (l₁ ++ c :: l₂) = true) (hnd : (l₁ ++ c :: l₂).Nodup) :
    (Childrenlist.delete s p c).isSome = true ∧
    (new ≠ r → x ≠ new → (∀ b, (s r).prev = some b → x ≠ b) →
      ((Childrenlist.insert_before s p r new) x).next = (s x).next) := by
  constructor
  · obtain ⟨s2, hdel, -⟩ := delete_spec hwf hnd
    rw [hdel]
    rfl
  · intro hnr h1 h2
    refine ib_next_of_ne hnr h1 ?_
    intro hcontra
    exact (h2 x hcontra) rfl

theorem C10_witness :
    (Childrenlist.delete exAB "p" "a").isSome = true ∧
    ((Childrenlist.insert_before exAB "p" "a" "c") "z").next = (exAB "z").next := by
  obtain ⟨h1, h2⟩ := @C10_delete_total_on_members exAB "p" "a" "c" "a" "z" [] ["b"]
    (by decide) (by decide)
  refine ⟨h1, h2 (by decide) (by decide) ?_⟩
  intro b hb
  rw [show (exAB "a").prev = none from by decide] at hb
  exact Option.noConfusion hb

end Claims

end Htmldom
